import Mathlib

/-!
Verification of the AVV dashboard's document-analysis route
(deterministic chunking, JSON extraction, reconciliation and scoring).

The definitions below are a shallow embedding of the TypeScript route:
JavaScript runtime values are modelled by `JsVal` (numbers as exact
rationals; the floating-point specials `NaN` and `Infinity` are not
represented), exceptions by `Option`/`Except`, and JS object property
tables by association lists with JS insertion-order update semantics.
-/

namespace AvvDash

/-- A JavaScript runtime value as observed by the route code.
Numbers are exact rationals; `NaN`/`Infinity` are not representable. -/
inductive JsVal where
  | undef
  | null
  | bool (b : Bool)
  | num (q : ℚ)
  | str (s : String)
  | arr (elems : List JsVal)
  | obj (fields : List (String × JsVal))
deriving Repr

/-- JS truthiness: `undefined`, `null`, `false`, `0` and `""` are falsy. -/
def jsTruthy : JsVal → Bool
  | .undef => false
  | .null => false
  | .bool b => b
  | .num q => decide (q ≠ 0)
  | .str s => decide (s ≠ "")
  | .arr _ => true
  | .obj _ => true

/-- `v` is `null` or `undefined` (the values short-circuited by `??` and `?.`). -/
def JsVal.isNullish : JsVal → Bool
  | .undef => true
  | .null => true
  | _ => false

/-- JS nullish coalescing `v ?? w`. -/
def jsCoalesce (v w : JsVal) : JsVal := if v.isNullish then w else v

/-- JS logical or `v || w`. -/
def jsOr (v w : JsVal) : JsVal := if jsTruthy v then v else w

/-- First-match association-list lookup (JS object key lookup;
objects built by the route have unique keys). -/
def assocGet {α : Type} : List (String × α) → String → Option α
  | [], _ => none
  | (k', v) :: rest, k => if k' = k then some v else assocGet rest k

/-- JS property write `o[k] = v`: update the existing entry in place,
or append a new one (JS objects keep insertion order). -/
def assocSet {α : Type} : List (String × α) → String → α → List (String × α)
  | [], k, v => [(k, v)]
  | (k', v') :: rest, k, v =>
    if k' = k then (k, v) :: rest else (k', v') :: assocSet rest k v

/-- JS property read `v.k` (on a non-object it yields `undefined`;
the route only dereferences values it has checked to be non-nullish). -/
def jsGet (v : JsVal) (k : String) : JsVal :=
  match v with
  | .obj fields => (assocGet fields k).getD (.undef)
  | _ => (.undef)

/-- JS optional chaining `v?.k`. -/
def jsGetOpt (v : JsVal) (k : String) : JsVal :=
  if v.isNullish then .undef else jsGet v k

/-- `typeof v === "object"` (true for `null`, arrays and plain objects). -/
def jsTypeofObject : JsVal → Bool
  | .null => true
  | .arr _ => true
  | .obj _ => true
  | _ => false

/-- `Array.isArray(v)`. -/
def isArray : JsVal → Bool
  | .arr _ => true
  | _ => false

/-- The route's `toArray` helper: `Array.isArray(v) ? v : []`. -/
def toArray : JsVal → List JsVal
  | .arr elems => elems
  | _ => []

/-- `Object.entries(v)` for the object-typed values the route feeds it
(plain objects and arrays; arrays yield stringified indices as keys). -/
def jsEntries : JsVal → List (String × JsVal)
  | .obj fields => fields
  | .arr elems => elems.enum.map (fun p => (toString p.1, p.2))
  | _ => []

/-- Strict equality `v === "s"` against a string literal. -/
def jsEqStr (v : JsVal) (s : String) : Bool :=
  match v with
  | .str t => decide (t = s)
  | _ => false

/-! ### Strings: whitespace, trimming, lowercasing, `String(v)` -/

/-- Whitespace as matched by the JS `\s` class and `String.trim`
(restricted to the characters that actually occur in this pipeline). -/
def isJsWs (c : Char) : Bool :=
  c = ' ' || c = '\t' || c = '\n' || c = '\r' || c = '\x0b' || c = '\x0c' || c = '\u00A0'

def collapseWsAux : Bool → List Char → List Char
  | _, [] => []
  | inRun, c :: rest =>
    if isJsWs c then
      if inRun then collapseWsAux true rest else ' ' :: collapseWsAux true rest
    else c :: collapseWsAux false rest

/-- `s.replace(/\s+/g, " ")`: every maximal whitespace run becomes one space. -/
def collapseWs (s : List Char) : List Char := collapseWsAux false s

/-- The route's `trimQuote`: collapse whitespace, then `.slice(0, 240)`. -/
def trimQuote (s : String) : String := String.mk ((collapseWs s.data).take 240)

/-- `String.prototype.toLowerCase` on one character, for the alphabets the
status vocabulary uses (ASCII plus the German umlauts). -/
def lowerChar (c : Char) : Char :=
  if 'A' ≤ c ∧ c ≤ 'Z' then Char.ofNat (c.toNat + 32)
  else if c = 'Ä' then 'ä' else if c = 'Ö' then 'ö' else if c = 'Ü' then 'ü' else c

def jsToLower (s : String) : String := String.mk (s.data.map lowerChar)

/-- Decimal digits of a rational in `[0, 1)`, most significant first,
up to the given number of digits. -/
def decimalDigits : ℕ → ℚ → List Char
  | 0, _ => []
  | fuel+1, q =>
    if q = 0 then []
    else
      let q10 := q * 10
      Char.ofNat (48 + q10.floor.toNat) :: decimalDigits fuel (q10 - q10.floor)

/-- JS number-to-string. Exact for integers; non-integer values are printed
as a (truncated) decimal expansion, which agrees with JS for the
decimally-terminating values this route can produce. -/
def qToString (q : ℚ) : String :=
  if q.den = 1 then toString q.num
  else
    (if q < 0 then "-" else "") ++ toString |q|.floor.toNat ++ "." ++
      String.mk (decimalDigits 20 (|q| - |q|.floor))

mutual

/-- JS `String(v)`. -/
def jsToString : JsVal → String
  | .undef => "undefined"
  | .null => "null"
  | .bool true => "true"
  | .bool false => "false"
  | .num q => qToString q
  | .str s => s
  | .obj _ => "[object Object]"
  | .arr elems => String.intercalate "," (jsToStringElems elems)

/-- `Array.prototype.toString` renders elements with `String(·)`,
except `null`/`undefined` which render as the empty string. -/
def jsToStringElems : List JsVal → List String
  | [] => []
  | e :: rest => (if e.isNullish then "" else jsToString e) :: jsToStringElems rest

end

/-! ### Scoring tables (`WEIGHTS`, `STATUS_TO_FACTOR`, key sets) -/

def WEIGHTS : List (String × ℚ) :=
  [("instructions_only", 15), ("confidentiality", 10), ("security_TOMs", 20),
   ("subprocessors", 15), ("data_subject_rights_support", 10), ("breach_support", 10),
   ("deletion_return", 10), ("audit_rights", 10)]

def A28_KEYS : List String :=
  ["instructions_only", "confidentiality", "security_TOMs", "subprocessors",
   "data_subject_rights_support", "breach_support", "deletion_return", "audit_rights"]

def EXTRA_KEYS : List String := ["international_transfers", "liability_cap", "jurisdiction"]

/-- `STATUS_TO_FACTOR`. On a falsy status, `(s || "")` yields `""` and the
factor is 0; on a truthy non-string, `.toLowerCase()` throws a TypeError
(modelled as `none`). -/
def STATUS_TO_FACTOR (s : JsVal) : Option ℚ :=
  if jsTruthy s then
    match s with
    | .str t =>
      let v := jsToLower t
      some (if v = "met" ∨ v = "erfüllt" then 1
            else if v = "partial" ∨ v = "teilweise" then 1/2 else 0)
    | _ => none
  else some 0

/-! ### Canonical record pieces -/

structure EvidenceItem where
  quote : String
  page : Option ℤ
deriving Repr, DecidableEq

structure FindingNode where
  status : JsVal
  evidence : List EvidenceItem
deriving Repr

structure ActionOut where
  category : JsVal
  severity : JsVal
  action : JsVal
deriving Repr

/-- `Number.isInteger(v) ? v : undefined` (an integer-valued number). -/
def pageNumberOf : JsVal → Option ℤ
  | .num q => if q.den = 1 then some q.num else none
  | _ => none

/-- One normalized evidence entry:
`{ quote: trimQuote(String(e?.quote ?? "")), page: Number.isInteger(e?.page) ? e.page : undefined }`. -/
def mkEvidenceItem (e : JsVal) : EvidenceItem :=
  { quote := trimQuote (jsToString (jsCoalesce (jsGetOpt e "quote") (.str "")))
    page := pageNumberOf (jsGetOpt e "page") }

/-- One normalized finding bucket:
`{ status: v.status, evidence: toArray(v.evidence ?? v.belege).slice(0,2).map(...) }`. -/
def mkFindingNode (v : JsVal) : FindingNode :=
  { status := jsGet v "status"
    evidence := ((toArray (jsCoalesce (jsGet v "evidence") (jsGet v "belege"))).take 2).map mkEvidenceItem }

/-- Fold one findings source into the bucket table:
skipped unless truthy and object-typed; each own entry whose value is a
truthy object becomes a bucket. -/
def addSourceBuckets (buckets : List (String × FindingNode)) (src : JsVal) :
    List (String × FindingNode) :=
  if jsTruthy src && jsTypeofObject src then
    (jsEntries src).foldl
      (fun b kv =>
        if jsTruthy kv.2 && jsTypeofObject kv.2 then assocSet b kv.1 (mkFindingNode kv.2) else b)
      buckets
  else buckets

/-- Collect findings from `raw.article_28_analysis`, `raw.additional_clauses`
and `raw.findings` (robustness against schema drift). -/
def collectBuckets (raw : JsVal) : List (String × FindingNode) :=
  [jsGetOpt raw "article_28_analysis", jsGetOpt raw "additional_clauses",
   jsGetOpt raw "findings"].foldl addSourceBuckets []

/-- A normalized party object `{ rolle, name, land }`. -/
def mkParty (rolle name : String) (land : JsVal) : JsVal :=
  .obj [("rolle", .str rolle), ("name", .str name), ("land", land)]

/-- Party normalization: a truthy non-array object keyed by role becomes an
array (the DPO kept separately); any other non-array becomes `[]`; an array
is kept as-is. Returns the party array and the optional `processor_dpo`. -/
def normalizeParties (p : JsVal) : List JsVal × Option String :=
  if jsTruthy p && !isArray p && jsTypeofObject p then
    let arr1 := if jsTruthy (jsGet p "controller")
      then [mkParty "Verantwortlicher" (jsToString (jsGet p "controller"))
              (jsOr (jsGet p "country") (.str "DE"))]
      else []
    let arr2 := if jsTruthy (jsGet p "processor")
      then arr1 ++ [mkParty "Auftragsverarbeiter" (jsToString (jsGet p "processor"))
              (jsOr (jsGet p "country") (.str "DE"))]
      else arr1
    let dpo := if jsTruthy (jsGet p "processor_dpo")
      then some (jsToString (jsGet p "processor_dpo")) else none
    (arr2, dpo)
  else if !isArray p then ([], none)
  else (toArray p, none)

/-- Normalize the merged action list. A nullish entry makes `a.category`
throw a TypeError (modelled as `none`); other entries are mapped to
`{ category: a.category ?? a.key ?? a.type ?? "", severity: a.severity ?? "medium",
action: a.action ?? a.recommendation ?? a.suggested_clause ?? "" }`. -/
def normalizeActs : List JsVal → Option (List ActionOut)
  | [] => some []
  | a :: rest =>
    if a.isNullish then none
    else
      (normalizeActs rest).map fun tail =>
        { category := jsCoalesce (jsGet a "category")
            (jsCoalesce (jsGet a "key") (jsCoalesce (jsGet a "type") (.str "")))
          severity := jsCoalesce (jsGet a "severity") (.str "medium")
          action := jsCoalesce (jsGet a "action")
            (jsCoalesce (jsGet a "recommendation")
              (jsCoalesce (jsGet a "suggested_clause") (.str ""))) } :: tail

/-- `out.article_28_analysis?.[k]?.status` (also used for
`additional_clauses`): the status of the finding at key `k`, or
`undefined` when the key is absent. -/
def statusIn (l : List (String × FindingNode)) (k : String) : JsVal :=
  ((assocGet l k).map FindingNode.status).getD (.undef)

/-- The deterministic base-score loop over `WEIGHTS`:
for each weighted key, `pts = weight * STATUS_TO_FACTOR(status)`;
returns the summed base and the per-category details in table order. -/
def computeBaseDetails : List (String × ℚ) → List (String × FindingNode) →
    Option (ℚ × List (String × ℚ))
  | [], _ => some (0, [])
  | (k, weight) :: rest, a28 =>
    (STATUS_TO_FACTOR (statusIn a28 k)).bind fun factor =>
      (computeBaseDetails rest a28).map fun bd =>
        (weight * factor + bd.1, (k, weight * factor) :: bd.2)

/-- The supplementary-clause bonus. -/
def computeBonus (extra : List (String × FindingNode)) : ℚ :=
  let intl := statusIn extra "international_transfers"
  let b1 : ℚ := if jsEqStr intl "met" then 5
    else if jsEqStr intl "present" then 3
    else if jsEqStr intl "partial" then 2 else 0
  let liab := statusIn extra "liability_cap"
  let b2 : ℚ := if jsEqStr liab "met" || jsEqStr liab "present" then 2 else 0
  let juris := statusIn extra "jurisdiction"
  let b3 : ℚ := if jsEqStr juris "met" || jsEqStr juris "present" then 2 else 0
  b1 + b2 + b3

/-- The calibration corrections. -/
def computeCorrections (actions : List ActionOut) (extra : List (String × FindingNode)) : ℚ :=
  let mediumOrHigh :=
    (actions.filter (fun a => jsEqStr a.severity "medium" || jsEqStr a.severity "high")).length
  let c1 : ℚ := if 3 ≤ mediumOrHigh then 5 else 0
  let c2 : ℚ := if actions.any (fun a => jsEqStr a.severity "high") then 5 else 0
  let liab := statusIn extra "liability_cap"
  let c3 : ℚ := if jsEqStr liab "missing" || jsEqStr liab "not_found" then 5 else 0
  let intl := statusIn extra "international_transfers"
  let c4 : ℚ := if jsEqStr intl "missing" then 3 else 0
  c1 + c2 + c3 + c4

/-- `typeof v === "number" ? v : null`. Every representable number is
finite, so the route's subsequent `Number.isFinite` test is `isSome`. -/
def jsAsNumber : JsVal → Option ℚ
  | .num q => some q
  | _ => none

/-- `Math.round` (ties toward positive infinity). -/
def jsRound (q : ℚ) : ℤ := ⌊q + 1/2⌋

/-- `Math.max(0, Math.min(100, n))`. -/
def clamp100 (n : ℤ) : ℤ := max 0 (min 100 n)

/-- The canonical output record built by `reconcileAndScore`. -/
structure OutRec where
  executive_summary : JsVal
  meta_title : JsVal
  meta_date : JsVal
  parties : List JsVal
  processor_dpo : Option String
  article28 : List (String × FindingNode)
  additional : List (String × FindingNode)
  actions : List ActionOut
  score_details : List (String × ℚ)
  overall : ℤ
  risk_overall : ℚ
  risk_rationale : JsVal
  version : String
deriving Repr

/-- `reconcileAndScore`: unify arbitrary agent output and recompute the
scores deterministically. `none` models the two TypeErrors the original can
throw (a nullish action entry; a truthy non-string core status). -/
def reconcileAndScore (raw : JsVal) : Option OutRec :=
  let execSummary := jsCoalesce (jsGetOpt raw "executive_summary") (.str "")
  let meta := jsGetOpt raw "contract_metadata"
  let title := jsCoalesce (jsGetOpt meta "title") (.str "")
  let date := jsCoalesce (jsGetOpt meta "date") (.str "")
  let p := jsCoalesce (jsGetOpt meta "parties") (jsCoalesce (jsGetOpt raw "parties") .null)
  let parties := normalizeParties p
  let buckets := collectBuckets raw
  let a28 := buckets.filter (fun kv => A28_KEYS.contains kv.1)
  let extra := buckets.filter (fun kv => EXTRA_KEYS.contains kv.1)
  (normalizeActs (toArray (jsGetOpt raw "recommended_actions") ++
      toArray (jsGetOpt raw "actions"))).bind fun allActs =>
    let actions := allActs.filter (fun a => jsTruthy a.category && jsTruthy a.action)
    (computeBaseDetails WEIGHTS a28).bind fun bd =>
      let base := bd.1
      let details := bd.2
      let bonus := computeBonus extra
      let corrections := computeCorrections actions extra
      let total := clamp100 (jsRound (base + bonus - corrections))
      let riskFromAgent : Option ℚ :=
        jsAsNumber (jsGetOpt (jsGetOpt raw "risk_score") "overall")
      some {
        executive_summary := execSummary
        meta_title := title
        meta_date := date
        parties := parties.1
        processor_dpo := parties.2
        article28 := a28
        additional := extra
        actions := actions
        score_details := details ++ [("bonus", bonus), ("penalties", 0), ("corrections", corrections)]
        overall := total
        risk_overall := riskFromAgent.getD ((100 : ℚ) - (total : ℚ))
        risk_rationale := jsCoalesce (jsGetOpt (jsGetOpt raw "risk_score") "rationale") (.str "")
        version := "2025-10-31-stable2" }

/-! ### Encoding the output record back into a JS value
(just the JS object the route actually builds, made explicit so that
re-reconciliation can be stated). -/

def EvidenceItem.toJs (e : EvidenceItem) : JsVal :=
  .obj [("quote", .str e.quote),
        ("page", match e.page with | some n => .num n | none => .undef)]

def FindingNode.toJs (n : FindingNode) : JsVal :=
  .obj [("status", n.status), ("evidence", .arr (n.evidence.map EvidenceItem.toJs))]

def ActionOut.toJs (a : ActionOut) : JsVal :=
  .obj [("category", a.category), ("severity", a.severity), ("action", a.action)]

def OutRec.toJs (o : OutRec) : JsVal :=
  .obj [("executive_summary", o.executive_summary),
        ("contract_metadata", .obj
          ([("title", o.meta_title), ("date", o.meta_date), ("parties", .arr o.parties)] ++
            (match o.processor_dpo with
             | some s => [("processor_dpo", JsVal.str s)]
             | none => []))),
        ("article_28_analysis", .obj (o.article28.map (fun kv => (kv.1, kv.2.toJs)))),
        ("additional_clauses", .obj (o.additional.map (fun kv => (kv.1, kv.2.toJs)))),
        ("recommended_actions", .arr (o.actions.map ActionOut.toJs)),
        ("compliance_score", .obj
          [("overall", .num o.overall),
           ("details", .obj (o.score_details.map (fun kv => (kv.1, JsVal.num kv.2))))]),
        ("risk_score", .obj [("overall", .num o.risk_overall), ("rationale", o.risk_rationale)]),
        ("version", .str o.version)]

/-! ### Inversion of `reconcileAndScore` -/

/-- Characterization of a successful reconciliation in terms of its parts. -/
theorem reconcileAndScore_eq_some {raw : JsVal} {out : OutRec}
    (h : reconcileAndScore raw = some out) :
    ∃ allActs base details,
      normalizeActs (toArray (jsGetOpt raw "recommended_actions") ++
        toArray (jsGetOpt raw "actions")) = some allActs ∧
      computeBaseDetails WEIGHTS
        ((collectBuckets raw).filter fun kv => A28_KEYS.contains kv.1) = some (base, details) ∧
      out = (
        let meta := jsGetOpt raw "contract_metadata"
        let p := jsCoalesce (jsGetOpt meta "parties") (jsCoalesce (jsGetOpt raw "parties") .null)
        let parties := normalizeParties p
        let extra := (collectBuckets raw).filter fun kv => EXTRA_KEYS.contains kv.1
        let actions := allActs.filter (fun a => jsTruthy a.category && jsTruthy a.action)
        let bonus := computeBonus extra
        let corrections := computeCorrections actions extra
        let total := clamp100 (jsRound (base + bonus - corrections))
        let riskFromAgent : Option ℚ :=
          jsAsNumber (jsGetOpt (jsGetOpt raw "risk_score") "overall")
        { executive_summary := jsCoalesce (jsGetOpt raw "executive_summary") (.str "")
          meta_title := jsCoalesce (jsGetOpt meta "title") (.str "")
          meta_date := jsCoalesce (jsGetOpt meta "date") (.str "")
          parties := parties.1
          processor_dpo := parties.2
          article28 := (collectBuckets raw).filter fun kv => A28_KEYS.contains kv.1
          additional := extra
          actions := actions
          score_details := details ++
            [("bonus", bonus), ("penalties", 0), ("corrections", corrections)]
          overall := total
          risk_overall := riskFromAgent.getD ((100 : ℚ) - (total : ℚ))
          risk_rationale := jsCoalesce (jsGetOpt (jsGetOpt raw "risk_score") "rationale") (.str "")
          version := "2025-10-31-stable2" }) := by
  unfold reconcileAndScore at h
  rw [Option.bind_eq_some] at h
  obtain ⟨allActs, hA, h⟩ := h
  rw [Option.bind_eq_some] at h
  obtain ⟨bd, hB, h⟩ := h
  exact ⟨allActs, bd.1, bd.2, hA, by rw [← hB], (Option.some.inj h).symm⟩

/-! ### C1: the overall score formula, clamping and range -/

/-- C1: for every record on which the scorer runs, the overall compliance
score equals `clamp(round(base + bonus - corrections), 0, 100)`, where
`base` is the weighted status sum over the 8 core categories of the
canonical record; consequently `overall` is always in `[0, 100]`.
(The embedding is a pure function, so determinism is inherent.) -/
theorem c1_overall_clamped (raw : JsVal) (out : OutRec)
    (h : reconcileAndScore raw = some out) :
    (∃ base details, computeBaseDetails WEIGHTS out.article28 = some (base, details) ∧
      out.overall = clamp100 (jsRound (base + computeBonus out.additional -
        computeCorrections out.actions out.additional))) ∧
    0 ≤ out.overall ∧ out.overall ≤ 100 := by
  obtain ⟨allActs, base, details, _, hB, hout⟩ := reconcileAndScore_eq_some h
  subst hout
  refine ⟨⟨base, details, hB, rfl⟩, le_max_left _ _, max_le (by norm_num) (min_le_left _ _)⟩

/-- Witness for C1 at the empty record. -/
theorem c1_overall_clamped_witness :
    (∃ base details,
      computeBaseDetails WEIGHTS
        ((Option.get (reconcileAndScore (JsVal.obj [])) (by rfl)).article28) = some (base, details) ∧
      (Option.get (reconcileAndScore (JsVal.obj [])) (by rfl)).overall =
        clamp100 (jsRound (base +
          computeBonus (Option.get (reconcileAndScore (JsVal.obj [])) (by rfl)).additional -
          computeCorrections (Option.get (reconcileAndScore (JsVal.obj [])) (by rfl)).actions
            (Option.get (reconcileAndScore (JsVal.obj [])) (by rfl)).additional))) ∧
    0 ≤ (Option.get (reconcileAndScore (JsVal.obj [])) (by rfl)).overall ∧
    (Option.get (reconcileAndScore (JsVal.obj [])) (by rfl)).overall ≤ 100 :=
  c1_overall_clamped (JsVal.obj []) _ (Option.some_get (by rfl)).symm

/-! ### C2: end-to-end scenario 3 -/

/-- The record of spec scenario 3: `instructions_only = met`,
`security_TOMs = partial`, the other core categories missing, one
high-severity action, `liability_cap = not_found`. -/
def scenario3Raw : JsVal :=
  .obj [("article_28_analysis", .obj [
          ("instructions_only", .obj [("status", .str "met")]),
          ("security_TOMs", .obj [("status", .str "partial")])]),
        ("additional_clauses", .obj [
          ("liability_cap", .obj [("status", .str "not_found")])]),
        ("recommended_actions", .arr [
          .obj [("category", .str "liability_cap"), ("severity", .str "high"),
                ("action", .str "add a liability cap")]])]

/-- C2: on scenario 3 the scorer yields base 25, bonus 0, corrections 10
(5 for the high-severity action plus 5 for the missing liability cap) and
overall 15. -/
theorem c2_scenario3 :
    (reconcileAndScore scenario3Raw).map
      (fun o => ((computeBaseDetails WEIGHTS o.article28).map Prod.fst,
                 assocGet o.score_details "bonus",
                 assocGet o.score_details "corrections",
                 o.overall)) =
    some (some 25, some 0, some 10, 15) := by
  obtain ⟨o, ho⟩ : ∃ o, reconcileAndScore scenario3Raw = some o :=
    Option.isSome_iff_exists.mp (by rfl)
  obtain ⟨allActs, base, details, hA, hB, hout⟩ := reconcileAndScore_eq_some ho
  have hActs : normalizeActs (toArray (jsGetOpt scenario3Raw "recommended_actions") ++
      toArray (jsGetOpt scenario3Raw "actions")) =
      some [⟨.str "liability_cap", .str "high", .str "add a liability cap"⟩] := rfl
  have hAeq : allActs = [⟨.str "liability_cap", .str "high", .str "add a liability cap"⟩] :=
    Option.some.inj (hA.symm.trans hActs)
  have ha28 : (collectBuckets scenario3Raw).filter (fun kv => A28_KEYS.contains kv.1) =
      [("instructions_only", ⟨.str "met", []⟩), ("security_TOMs", ⟨.str "partial", []⟩)] := rfl
  have hextra : (collectBuckets scenario3Raw).filter (fun kv => EXTRA_KEYS.contains kv.1) =
      [("liability_cap", ⟨.str "not_found", []⟩)] := rfl
  have f1 : STATUS_TO_FACTOR (.str "met") = some 1 := rfl
  have f2 : STATUS_TO_FACTOR (.str "partial") = some (1/2) := rfl
  have f3 : STATUS_TO_FACTOR .undef = some 0 := rfl
  have hBval : computeBaseDetails WEIGHTS
      [("instructions_only", ⟨.str "met", []⟩), ("security_TOMs", ⟨.str "partial", []⟩)] =
      some (25, [("instructions_only", 15), ("confidentiality", 0), ("security_TOMs", 10),
        ("subprocessors", 0), ("data_subject_rights_support", 0), ("breach_support", 0),
        ("deletion_return", 0), ("audit_rights", 0)]) := by
    simp only [computeBaseDetails, WEIGHTS, statusIn, assocGet]
    simp [f1, f2, f3]
    norm_num
  rw [ha28] at hB
  have hpair := Option.some.inj (hB.symm.trans hBval)
  have hbase : base = 25 := congrArg Prod.fst hpair
  have hdets : details = [("instructions_only", 15), ("confidentiality", 0), ("security_TOMs", 10),
      ("subprocessors", 0), ("data_subject_rights_support", 0), ("breach_support", 0),
      ("deletion_return", 0), ("audit_rights", 0)] := congrArg Prod.snd hpair
  have hbonus : computeBonus [("liability_cap", ⟨.str "not_found", []⟩)] = 0 := by
    simp only [computeBonus, statusIn, assocGet]
    simp [jsEqStr]
  have hfilt : List.filter (fun a => jsTruthy a.category && jsTruthy a.action)
      [(⟨.str "liability_cap", .str "high", .str "add a liability cap"⟩ : ActionOut)] =
      [⟨.str "liability_cap", .str "high", .str "add a liability cap"⟩] := rfl
  have hcorr : computeCorrections
      [⟨.str "liability_cap", .str "high", .str "add a liability cap"⟩]
      [("liability_cap", ⟨.str "not_found", []⟩)] = 10 := by
    simp only [computeCorrections, statusIn, assocGet]
    simp [jsEqStr, List.filter, List.any]
    norm_num
  have h28 : o.article28 =
      (collectBuckets scenario3Raw).filter (fun kv => A28_KEYS.contains kv.1) := by rw [hout]
  have hsd : o.score_details = details ++
      [("bonus", computeBonus ((collectBuckets scenario3Raw).filter
          (fun kv => EXTRA_KEYS.contains kv.1))),
       ("penalties", 0),
       ("corrections", computeCorrections
          (allActs.filter (fun a => jsTruthy a.category && jsTruthy a.action))
          ((collectBuckets scenario3Raw).filter (fun kv => EXTRA_KEYS.contains kv.1)))] := by
    rw [hout]
  have hov : o.overall = clamp100 (jsRound (base +
      computeBonus ((collectBuckets scenario3Raw).filter
        (fun kv => EXTRA_KEYS.contains kv.1)) -
      computeCorrections
        (allActs.filter (fun a => jsTruthy a.category && jsTruthy a.action))
        ((collectBuckets scenario3Raw).filter (fun kv => EXTRA_KEYS.contains kv.1)))) := by
    rw [hout]
  rw [ho, Option.map_some']
  refine congrArg some ?_
  rw [h28, ha28, hBval, hsd, hov, hbase, hdets, hextra, hAeq, hfilt, hbonus, hcorr]
  simp [assocGet, jsRound, clamp100]
  rw [show ⌊(25 - 10 + 2⁻¹ : ℚ)⌋ = (15 : ℤ) from by norm_num [Int.floor_eq_iff]]
  decide

/-! ### C3: the risk score -/

theorem assocGet_assocSet_ne {α : Type} (l : List (String × α)) (k k' : String) (v : α)
    (h : ¬ k' = k) : assocGet (assocSet l k' v) k = assocGet l k := by
  induction l with
  | nil => simp [assocSet, assocGet, h]
  | cons hd tl ih =>
    obtain ⟨k0, v0⟩ := hd
    simp only [assocSet]
    by_cases hk : k0 = k'
    · subst hk
      simp [assocGet, h]
    · by_cases h2 : k0 = k
      · have hkk : ¬ k = k' := fun e => h e.symm
        simp [assocGet, hk, h2, hkk]
      · simp [assocGet, hk, h2, ih]

/-- Replace (or create) `raw.risk_score.overall` with the value `v`,
leaving every other property of `raw` unchanged. Statement helper used to
express that the override never influences the computed `overall`
(non-objects are returned unchanged). -/
def setRiskOverall (raw v : JsVal) : JsVal :=
  match raw with
  | .obj fields =>
    let rs := (assocGet fields "risk_score").getD (.undef)
    let rs' : JsVal := match rs with
      | .obj rf => .obj (assocSet rf "overall" v)
      | _ => .obj [("overall", v)]
    .obj (assocSet fields "risk_score" rs')
  | _ => raw

theorem jsGetOpt_setRiskOverall (raw v : JsVal) (k : String) (h : ¬ k = "risk_score") :
    jsGetOpt (setRiskOverall raw v) k = jsGetOpt raw k := by
  cases raw <;>
    simp only [setRiskOverall, jsGetOpt, jsGet, JsVal.isNullish] <;>
    try rfl
  exact congrArg (Option.getD · JsVal.undef)
    (assocGet_assocSet_ne _ _ _ _ (fun hh => h hh.symm))

/-- The computed `overall` depends only on the findings sources and the
action sources of the input record. -/
theorem reconcile_overall_congr (raw raw' : JsVal)
    (h1 : jsGetOpt raw "article_28_analysis" = jsGetOpt raw' "article_28_analysis")
    (h2 : jsGetOpt raw "additional_clauses" = jsGetOpt raw' "additional_clauses")
    (h3 : jsGetOpt raw "findings" = jsGetOpt raw' "findings")
    (h4 : jsGetOpt raw "recommended_actions" = jsGetOpt raw' "recommended_actions")
    (h5 : jsGetOpt raw "actions" = jsGetOpt raw' "actions") :
    (reconcileAndScore raw).map OutRec.overall =
      (reconcileAndScore raw').map OutRec.overall := by
  unfold reconcileAndScore collectBuckets
  rw [h1, h2, h3, h4, h5]
  dsimp only
  cases normalizeActs (toArray (jsGetOpt raw' "recommended_actions") ++
      toArray (jsGetOpt raw' "actions")) with
  | none => rfl
  | some allActs =>
    cases computeBaseDetails WEIGHTS
        (([jsGetOpt raw' "article_28_analysis", jsGetOpt raw' "additional_clauses",
           jsGetOpt raw' "findings"].foldl addSourceBuckets []).filter
          (fun kv => A28_KEYS.contains kv.1)) with
    | none => rfl
    | some bd => rfl

/-- C3: the returned risk score equals `100 − overall` when the input
carried no numeric `risk_score.overall`; a numeric one is preserved
unchanged, while `overall` itself is recomputed independently of the
override (replacing the override never changes `overall`). -/
theorem c3_risk_score (raw : JsVal) (out : OutRec) (h : reconcileAndScore raw = some out) :
    (∀ q : ℚ, jsGetOpt (jsGetOpt raw "risk_score") "overall" = JsVal.num q →
      out.risk_overall = q) ∧
    (jsAsNumber (jsGetOpt (jsGetOpt raw "risk_score") "overall") = none →
      out.risk_overall = 100 - (out.overall : ℚ)) ∧
    (∀ v : JsVal, (reconcileAndScore (setRiskOverall raw v)).map OutRec.overall =
      some out.overall) := by
  obtain ⟨allActs, base, details, hA, hB, hout⟩ := reconcileAndScore_eq_some h
  refine ⟨?_, ?_, ?_⟩
  · intro q hq
    rw [hout]
    simp only [hq, jsAsNumber, Option.getD_some]
  · intro hn
    rw [hout]
    dsimp only
    rw [hn]
    rfl
  · intro v
    have hc : (reconcileAndScore (setRiskOverall raw v)).map OutRec.overall =
        (reconcileAndScore raw).map OutRec.overall := by
      refine reconcile_overall_congr _ _ ?_ ?_ ?_ ?_ ?_ <;>
        exact jsGetOpt_setRiskOverall raw v _ (by simp)
    rw [hc, h, Option.map_some']

/-- Witness for C3 at a record carrying a numeric risk override. -/
theorem c3_risk_score_witness :
    (∀ q : ℚ, jsGetOpt (jsGetOpt (JsVal.obj [("risk_score", JsVal.obj
        [("overall", JsVal.num 37)])]) "risk_score") "overall" = JsVal.num q →
      (Option.get (reconcileAndScore (JsVal.obj [("risk_score", JsVal.obj
        [("overall", JsVal.num 37)])])) (by rfl)).risk_overall = q) ∧
    (jsAsNumber (jsGetOpt (jsGetOpt (JsVal.obj [("risk_score", JsVal.obj
        [("overall", JsVal.num 37)])]) "risk_score") "overall") = none →
      (Option.get (reconcileAndScore (JsVal.obj [("risk_score", JsVal.obj
        [("overall", JsVal.num 37)])])) (by rfl)).risk_overall =
        100 - ((Option.get (reconcileAndScore (JsVal.obj [("risk_score", JsVal.obj
          [("overall", JsVal.num 37)])])) (by rfl)).overall : ℚ)) ∧
    (∀ v : JsVal, (reconcileAndScore (setRiskOverall (JsVal.obj [("risk_score", JsVal.obj
        [("overall", JsVal.num 37)])]) v)).map OutRec.overall =
      some (Option.get (reconcileAndScore (JsVal.obj [("risk_score", JsVal.obj
        [("overall", JsVal.num 37)])])) (by rfl)).overall) :=
  c3_risk_score _ _ (Option.some_get (by rfl)).symm

/-! ### C9: totality of the reconciler -/

/-- `v` is a string value. -/
def isStringVal : JsVal → Bool
  | .str _ => true
  | _ => false

/-- A status value on which `STATUS_TO_FACTOR` does not throw:
falsy (so `(s || "")` yields `""`), or a string. -/
def statusSafe (v : JsVal) : Bool := !jsTruthy v || isStringVal v

theorem STATUS_TO_FACTOR_isSome {v : JsVal} (h : statusSafe v = true) :
    (STATUS_TO_FACTOR v).isSome = true := by
  unfold STATUS_TO_FACTOR
  cases v <;> simp_all [statusSafe, isStringVal, jsTruthy] <;> split_ifs <;> simp_all

theorem normalizeActs_isSome {l : List JsVal} (h : ∀ a ∈ l, a.isNullish = false) :
    (normalizeActs l).isSome = true := by
  induction l with
  | nil => rfl
  | cons a rest ih =>
    have ha : a.isNullish = false := h a (List.mem_cons_self a rest)
    have hrest := ih fun x hx => h x (List.mem_cons_of_mem a hx)
    simp [normalizeActs, ha, hrest]

theorem assocGet_mem {α : Type} {l : List (String × α)} {k : String} {v : α}
    (h : assocGet l k = some v) : (k, v) ∈ l := by
  induction l with
  | nil => cases h
  | cons hd tl ih =>
    obtain ⟨k0, v0⟩ := hd
    by_cases hk : k0 = k
    · subst hk
      simp [assocGet] at h
      simp [h]
    · simp only [assocGet, if_neg hk] at h
      exact List.mem_cons_of_mem _ (ih h)

theorem computeBaseDetails_isSome {ws : List (String × ℚ)}
    {a28 : List (String × FindingNode)}
    (h : ∀ kv ∈ a28, statusSafe kv.2.status = true) :
    (computeBaseDetails ws a28).isSome = true := by
  induction ws with
  | nil => rfl
  | cons hd rest ih =>
    obtain ⟨k, w⟩ := hd
    have hs : statusSafe (statusIn a28 k) = true := by
      unfold statusIn
      cases hg : assocGet a28 k with
      | none => rfl
      | some node => simpa using h (k, node) (assocGet_mem hg)
    obtain ⟨f, hf⟩ := Option.isSome_iff_exists.mp (STATUS_TO_FACTOR_isSome hs)
    obtain ⟨bd, hbd⟩ := Option.isSome_iff_exists.mp ih
    simp [computeBaseDetails, hf, hbd]

/-- C9 (amended): the reconciler never throws provided every entry of the
incoming action arrays is non-nullish and every collected core-category
finding's status is falsy-or-string (the two TypeError sources the claim
overlooks). -/
theorem c9_reconcile_total (raw : JsVal)
    (hacts : ∀ a ∈ toArray (jsGetOpt raw "recommended_actions") ++
      toArray (jsGetOpt raw "actions"), a.isNullish = false)
    (hstat : ∀ kv ∈ (collectBuckets raw).filter (fun kv => A28_KEYS.contains kv.1),
      statusSafe kv.2.status = true) :
    (reconcileAndScore raw).isSome = true := by
  obtain ⟨allActs, hA⟩ := Option.isSome_iff_exists.mp (normalizeActs_isSome hacts)
  obtain ⟨bd, hB⟩ :=
    Option.isSome_iff_exists.mp (@computeBaseDetails_isSome WEIGHTS _ hstat)
  simp only [reconcileAndScore, hA, hB, Option.some_bind, Option.isSome_some]

/-- Witness for C9's amended totality at the scenario-3 record. -/
theorem c9_reconcile_total_witness : (reconcileAndScore scenario3Raw).isSome = true :=
  c9_reconcile_total scenario3Raw (by decide) (by decide)

/-- C9 counterexample: a `null` entry in the actions array makes the
reconciler throw a TypeError at `a.category` (and, likewise, a truthy
non-string core status makes `.toLowerCase()` throw), so `reconcile` is
not total on arbitrarily-shaped records. -/
theorem c9_counterexample :
    reconcileAndScore (JsVal.obj [("recommended_actions", JsVal.arr [JsVal.null])]) = none ∧
    reconcileAndScore (JsVal.obj [("article_28_analysis",
      JsVal.obj [("instructions_only", JsVal.obj [("status", JsVal.num 5)])])]) = none :=
  ⟨rfl, rfl⟩

/-! ### C10: bounds on bonus and base -/

theorem computeBonus_bounds (extra : List (String × FindingNode)) :
    0 ≤ computeBonus extra ∧ computeBonus extra ≤ 9 := by
  unfold computeBonus
  dsimp only
  split_ifs <;> norm_num

theorem STATUS_TO_FACTOR_le {v : JsVal} {f : ℚ} (h : STATUS_TO_FACTOR v = some f) :
    0 ≤ f ∧ f ≤ 1 := by
  unfold STATUS_TO_FACTOR at h
  by_cases ht : jsTruthy v = true
  · rw [if_pos ht] at h
    cases v with
    | str t =>
      have h' := Option.some.inj h
      split_ifs at h' <;> rw [← h'] <;> norm_num
    | undef => exact Option.noConfusion h
    | null => exact Option.noConfusion h
    | bool b => exact Option.noConfusion h
    | num q => exact Option.noConfusion h
    | arr l => exact Option.noConfusion h
    | obj l => exact Option.noConfusion h
  · rw [if_neg ht] at h
    cases Option.some.inj h
    norm_num

theorem computeBaseDetails_le {ws : List (String × ℚ)}
    {a28 : List (String × FindingNode)} {b : ℚ} {d : List (String × ℚ)}
    (hw : ∀ kv ∈ ws, 0 ≤ kv.2)
    (h : computeBaseDetails ws a28 = some (b, d)) :
    0 ≤ b ∧ b ≤ (ws.map Prod.snd).sum := by
  induction ws generalizing b d with
  | nil =>
    simp only [computeBaseDetails] at h
    injection h with hpair
    injection hpair with h1 h2
    subst h1
    norm_num
  | cons hd rest ih =>
    obtain ⟨k, w⟩ := hd
    simp only [computeBaseDetails, Option.bind_eq_some, Option.map_eq_some'] at h
    obtain ⟨f, hf, bd, hbd, hpair⟩ := h
    have hfb := STATUS_TO_FACTOR_le hf
    have hw0 : (0 : ℚ) ≤ w := by simpa using hw (k, w) (List.mem_cons_self _ _)
    have hrest := ih (fun kv hm => hw kv (List.mem_cons_of_mem _ hm))
      (show computeBaseDetails rest a28 = some (bd.1, bd.2) from hbd)
    have hb : b = w * f + bd.1 := (Prod.ext_iff.mp hpair).1.symm
    have hmul0 : 0 ≤ w * f := mul_nonneg hw0 hfb.1
    have hmul1 : w * f ≤ w := by
      calc w * f ≤ w * 1 := mul_le_mul_of_nonneg_left hfb.2 hw0
      _ = w := mul_one w
    constructor
    · rw [hb]; exact add_nonneg hmul0 hrest.1
    · rw [hb]
      simp only [List.map_cons, List.sum_cons]
      exact add_le_add hmul1 hrest.2

/-- C10: the supplementary bonus is at most 9 (5 from international
transfers, 2 from the liability cap, 2 from jurisdiction), so it never
reaches the informal cap of 10; before the final clamp,
`base + bonus ≤ 109`. -/
theorem c10_bonus_bound (raw : JsVal) (out : OutRec)
    (h : reconcileAndScore raw = some out) :
    computeBonus out.additional ≤ 9 ∧
    ∀ base details, computeBaseDetails WEIGHTS out.article28 = some (base, details) →
      base + computeBonus out.additional ≤ 109 := by
  refine ⟨(computeBonus_bounds _).2, fun base details hB => ?_⟩
  have hw : ∀ kv ∈ WEIGHTS, (0 : ℚ) ≤ kv.2 := by
    simp [WEIGHTS]
  have hb := computeBaseDetails_le hw hB
  have hsum : ((WEIGHTS.map Prod.snd).sum : ℚ) = 100 := by
    simp [WEIGHTS]
    norm_num
  have hbo := (computeBonus_bounds out.additional).2
  have : base ≤ 100 := hsum ▸ hb.2
  linarith

/-- Witness for C10 at the empty record. -/
theorem c10_bonus_bound_witness :
    computeBonus (Option.get (reconcileAndScore (JsVal.obj [])) (by rfl)).additional ≤ 9 ∧
    ∀ base details, computeBaseDetails WEIGHTS
        (Option.get (reconcileAndScore (JsVal.obj [])) (by rfl)).article28 =
        some (base, details) →
      base + computeBonus (Option.get (reconcileAndScore (JsVal.obj [])) (by rfl)).additional
        ≤ 109 :=
  c10_bonus_bound (JsVal.obj []) _ (Option.some_get (by rfl)).symm

/-! ### C8 infrastructure: whitespace-collapse idempotence -/

/-- A character list is in collapsed form: every whitespace character is a
plain space, and no two spaces are adjacent. -/
def collapsedOk : List Char → Bool
  | [] => true
  | c :: rest =>
    ((!(isJsWs c) || c = ' ') &&
      (match rest with
       | d :: _ => !(c = ' ' && d = ' ')
       | [] => true)) && collapsedOk rest

theorem collapseWsAux_ok (l : List Char) :
    (∀ b, collapsedOk (collapseWsAux b l) = true) ∧
    (∀ c cs, collapseWsAux true l = c :: cs → isJsWs c = false) := by
  induction l with
  | nil => exact ⟨fun b => rfl, fun c cs h => by cases h⟩
  | cons c rest ih =>
    by_cases hc : isJsWs c = true
    · refine ⟨fun b => ?_, fun d ds h => ?_⟩
      · cases b with
        | true => simpa [collapseWsAux, hc] using (ih.1 true)
        | false =>
          simp only [collapseWsAux, hc, if_true]
          have hok := ih.1 true
          cases hx : collapseWsAux true rest with
          | nil => simp [collapsedOk, isJsWs]
          | cons d ds =>
            have hd : isJsWs d = false := ih.2 d ds hx
            have hd' : ¬ d = ' ' := fun e => by
              rw [e] at hd
              exact absurd hd (by simp [isJsWs])
            rw [hx] at hok
            show collapsedOk (' ' :: d :: ds) = true
            simp only [collapsedOk, Bool.and_eq_true] at hok ⊢
            exact ⟨⟨by simp [isJsWs], by simp [hd']⟩, hok⟩
      · rw [show collapseWsAux true (c :: rest) = collapseWsAux true rest from by
          simp [collapseWsAux, hc]] at h
        exact ih.2 d ds h
    · have hc' : isJsWs c = false := by simpa using hc
      have hcs : ¬ c = ' ' := fun e => by
        rw [e] at hc'
        exact absurd hc' (by simp [isJsWs])
      refine ⟨fun b => ?_, fun d ds h => ?_⟩
      · have hout : collapseWsAux b (c :: rest) = c :: collapseWsAux false rest := by
          simp [collapseWsAux, hc']
        rw [hout]
        have hok := ih.1 false
        cases hx : collapseWsAux false rest with
        | nil => simp [collapsedOk, hc', hcs]
        | cons d ds =>
          rw [hx] at hok
          show collapsedOk (c :: d :: ds) = true
          simp only [collapsedOk, Bool.and_eq_true] at hok ⊢
          exact ⟨⟨by simp [hc'], by simp [hcs]⟩, hok⟩
      · rw [show collapseWsAux true (c :: rest) = c :: collapseWsAux false rest from by
          simp [collapseWsAux, hc']] at h
        cases h
        exact hc'

/-- The head of a list (if any) is not whitespace. -/
def headNotWs : List Char → Bool
  | [] => true
  | c :: _ => !(isJsWs c)

theorem collapseWsAux_of_collapsedOk (l : List Char) (h : collapsedOk l = true) :
    collapseWsAux false l = l ∧ (headNotWs l = true → collapseWsAux true l = l) := by
  induction l with
  | nil => exact ⟨rfl, fun _ => rfl⟩
  | cons c rest ih =>
    simp only [collapsedOk, Bool.and_eq_true, Bool.or_eq_true] at h
    obtain ⟨⟨hchar, hadj⟩, hrest⟩ := h
    obtain ⟨ihf, iht⟩ := ih hrest
    by_cases hc : isJsWs c = true
    · have hsp : c = ' ' := by
        rcases hchar with hne | he
        · rw [hc] at hne
          cases hne
        · simpa using he
      have hheadrest : headNotWs rest = true := by
        cases rest with
        | nil => rfl
        | cons d ds =>
          simp only [headNotWs]
          by_cases hd : d = ' '
          · exfalso
            simp [hsp, hd] at hadj
          · -- d is not a space; if it were whitespace it would have to be ' '
            simp only [collapsedOk, Bool.and_eq_true, Bool.or_eq_true] at hrest
            rcases hrest.1.1 with hne | he
            · simpa using hne
            · exact absurd (by simpa using he) hd
      constructor
      · simp [collapseWsAux, hsp, iht hheadrest, isJsWs]
      · intro hh
        simp [headNotWs, hc] at hh
    · have hc' : isJsWs c = false := by simpa using hc
      exact ⟨by simp [collapseWsAux, hc', ihf], fun _ => by simp [collapseWsAux, hc', ihf]⟩

theorem collapsedOk_take (l : List Char) (n : ℕ) (h : collapsedOk l = true) :
    collapsedOk (l.take n) = true := by
  induction l generalizing n with
  | nil => simpa using h
  | cons c rest ih =>
    cases n with
    | zero => rfl
    | succ m =>
      simp only [List.take]
      simp only [collapsedOk, Bool.and_eq_true] at h
      obtain ⟨⟨hchar, hadj⟩, hrest⟩ := h
      have htail := ih m hrest
      simp only [collapsedOk, Bool.and_eq_true]
      refine ⟨⟨hchar, ?_⟩, htail⟩
      cases rest with
      | nil => simp [List.take]
      | cons d ds =>
        cases m with
        | zero => simp [List.take]
        | succ m' => simpa [List.take] using hadj

theorem collapseWs_of_collapsedOk {l : List Char} (h : collapsedOk l = true) :
    collapseWs l = l :=
  (collapseWsAux_of_collapsedOk l h).1

theorem trimQuote_idem (s : String) : trimQuote (trimQuote s) = trimQuote s := by
  unfold trimQuote
  refine congrArg String.mk ?_
  have h1 : collapsedOk (collapseWs s.data) = true := (collapseWsAux_ok s.data).1 false
  have h2 : collapsedOk ((collapseWs s.data).take 240) = true := collapsedOk_take _ _ h1
  rw [show (String.mk ((collapseWs s.data).take 240)).data =
        (collapseWs s.data).take 240 from rfl,
      collapseWs_of_collapsedOk h2, List.take_take]
  norm_num

/-! ### C8 infrastructure: re-reading an encoded record -/

theorem jsTruthy_not_nullish {v : JsVal} (h : jsTruthy v = true) : v.isNullish = false := by
  cases v <;> simp_all [jsTruthy, JsVal.isNullish]

theorem jsCoalesce_of_not_nullish {v : JsVal} (w : JsVal) (h : v.isNullish = false) :
    jsCoalesce v w = v := by simp [jsCoalesce, h]

theorem jsCoalesce_str_not_nullish (v : JsVal) (s : String) :
    (jsCoalesce v (.str s)).isNullish = false := by
  by_cases h : v.isNullish = true
  · rw [jsCoalesce, if_pos h]
    rfl
  · simp only [Bool.not_eq_true] at h
    simp [jsCoalesce, h]

theorem mkEvidenceItem_toJs (e : EvidenceItem) (h : trimQuote e.quote = e.quote) :
    mkEvidenceItem e.toJs = e := by
  obtain ⟨q, p⟩ := e
  cases p with
  | none =>
    show mkEvidenceItem (JsVal.obj [("quote", .str q), ("page", .undef)]) = ⟨q, none⟩
    simp [mkEvidenceItem, jsGetOpt, jsGet, assocGet, jsCoalesce, JsVal.isNullish,
      jsToString, pageNumberOf]
    exact h
  | some n =>
    show mkEvidenceItem (JsVal.obj [("quote", .str q), ("page", .num n)]) = ⟨q, some n⟩
    simp [mkEvidenceItem, jsGetOpt, jsGet, assocGet, jsCoalesce, JsVal.isNullish,
      jsToString, pageNumberOf, Rat.den_intCast, Rat.num_intCast]
    exact h

theorem mkFindingNode_toJs (n : FindingNode) (hlen : n.evidence.length ≤ 2)
    (hq : ∀ e ∈ n.evidence, trimQuote e.quote = e.quote) :
    mkFindingNode n.toJs = n := by
  obtain ⟨st, ev⟩ := n
  show mkFindingNode (JsVal.obj
      [("status", st), ("evidence", .arr (ev.map EvidenceItem.toJs))]) = ⟨st, ev⟩
  simp only [mkFindingNode, jsGet, assocGet]
  simp only [FindingNode.mk.injEq]
  constructor
  · simp
  · have h1 : ((ev.map EvidenceItem.toJs).take 2) = ev.map EvidenceItem.toJs :=
      List.take_of_length_le (by simpa using hlen)
    simp only [jsCoalesce, JsVal.isNullish, toArray]
    simp [h1, List.map_map]
    calc ev.map (mkEvidenceItem ∘ EvidenceItem.toJs) = ev.map id :=
        List.map_congr_left (fun e he => mkEvidenceItem_toJs e (hq e he))
      _ = ev := List.map_id ev

theorem assocSet_append_of_fresh {α : Type} (l : List (String × α)) (k : String) (v : α)
    (h : ∀ kv ∈ l, kv.1 ≠ k) : assocSet l k v = l ++ [(k, v)] := by
  induction l with
  | nil => rfl
  | cons hd tl ih =>
    obtain ⟨k0, v0⟩ := hd
    have hk : ¬ k0 = k := by simpa using h (k0, v0) (List.mem_cons_self _ _)
    simp only [assocSet, if_neg hk, List.cons_append, List.cons.injEq, true_and]
    exact ih (fun kv hm => h kv (List.mem_cons_of_mem _ hm))

/-- Folding object entries with fresh, pairwise-distinct keys into the
bucket table appends the normalized nodes in entry order. -/
theorem bucketsFold_fresh (fields : List (String × JsVal))
    (buckets : List (String × FindingNode))
    (hvals : ∀ kv ∈ fields, (jsTruthy kv.2 && jsTypeofObject kv.2) = true)
    (hfresh : ∀ kv ∈ fields, ∀ kv' ∈ buckets, kv'.1 ≠ kv.1)
    (hnodup : (fields.map Prod.fst).Nodup) :
    fields.foldl (fun b kv =>
        if jsTruthy kv.2 && jsTypeofObject kv.2 then
          assocSet b kv.1 (mkFindingNode kv.2) else b) buckets =
      buckets ++ fields.map (fun kv => (kv.1, mkFindingNode kv.2)) := by
  induction fields generalizing buckets with
  | nil => simp
  | cons hd tl ih =>
    obtain ⟨k, v⟩ := hd
    have hv := hvals (k, v) (List.mem_cons_self _ _)
    simp only [List.foldl_cons, hv, if_true]
    rw [assocSet_append_of_fresh _ _ _
      (fun kv' hm => hfresh (k, v) (List.mem_cons_self _ _) kv' hm)]
    simp only [List.map_cons] at hnodup
    have hknot : k ∉ tl.map Prod.fst := (List.nodup_cons.mp hnodup).1
    have harg1 : ∀ kv ∈ tl, (jsTruthy kv.2 && jsTypeofObject kv.2) = true :=
      fun kv hm => hvals kv (List.mem_cons_of_mem _ hm)
    have harg2 : ∀ kv ∈ tl, ∀ kv' ∈ buckets ++ [(k, mkFindingNode v)], kv'.1 ≠ kv.1 := by
      intro kv hm kv' hm'
      rcases List.mem_append.mp hm' with hb | hone
      · exact hfresh kv (List.mem_cons_of_mem _ hm) kv' hb
      · have he : kv' = (k, mkFindingNode v) := by simpa using hone
        subst he
        intro he2
        have hk2 : k = kv.1 := he2
        exact hknot (hk2 ▸ List.mem_map_of_mem Prod.fst hm)
    rw [ih (buckets ++ [(k, mkFindingNode v)]) harg1 harg2 (List.nodup_cons.mp hnodup).2]
    simp

theorem normalizeActs_toJs (acts : List ActionOut)
    (hok : ∀ a ∈ acts, jsTruthy a.category = true ∧ jsTruthy a.action = true ∧
      a.severity.isNullish = false) :
    normalizeActs (acts.map ActionOut.toJs) = some acts := by
  induction acts with
  | nil => rfl
  | cons a tl ih =>
    obtain ⟨hcat, hact, hsev⟩ := hok a (List.mem_cons_self _ _)
    have ihh := ih (fun x hx => hok x (List.mem_cons_of_mem _ hx))
    obtain ⟨c, s, act⟩ := a
    simp only [List.map_cons, normalizeActs]
    rw [show (ActionOut.toJs ⟨c, s, act⟩).isNullish = false from rfl]
    simp only [Bool.false_eq_true, if_false, ihh, Option.map_some', Option.some.injEq]
    refine List.cons_eq_cons.mpr ⟨?_, rfl⟩
    have h1 : jsGet (ActionOut.toJs ⟨c, s, act⟩) "category" = c := rfl
    have h2 : jsGet (ActionOut.toJs ⟨c, s, act⟩) "severity" = s := rfl
    have h3 : jsGet (ActionOut.toJs ⟨c, s, act⟩) "action" = act := rfl
    have h4 : jsGet (ActionOut.toJs ⟨c, s, act⟩) "key" = .undef := rfl
    have h5 : jsGet (ActionOut.toJs ⟨c, s, act⟩) "type" = .undef := rfl
    have h6 : jsGet (ActionOut.toJs ⟨c, s, act⟩) "recommendation" = .undef := rfl
    have h7 : jsGet (ActionOut.toJs ⟨c, s, act⟩) "suggested_clause" = .undef := rfl
    rw [ActionOut.mk.injEq]
    refine ⟨?_, ?_, ?_⟩
    · rw [h1, jsCoalesce_of_not_nullish _ (jsTruthy_not_nullish hcat)]
    · rw [h2, jsCoalesce_of_not_nullish _ hsev]
    · rw [h3, jsCoalesce_of_not_nullish _ (jsTruthy_not_nullish hact)]

theorem filter_actions_id (acts : List ActionOut)
    (hok : ∀ a ∈ acts, jsTruthy a.category = true ∧ jsTruthy a.action = true) :
    acts.filter (fun a => jsTruthy a.category && jsTruthy a.action) = acts :=
  List.filter_eq_self.mpr (fun a ha => by simp [(hok a ha).1, (hok a ha).2])

theorem assocSet_keys {α : Type} (l : List (String × α)) (k : String) (v : α) :
    (assocSet l k v).map Prod.fst =
      if k ∈ l.map Prod.fst then l.map Prod.fst else l.map Prod.fst ++ [k] := by
  induction l with
  | nil => simp [assocSet]
  | cons hd tl ih =>
    obtain ⟨k0, v0⟩ := hd
    by_cases hk : k0 = k
    · subst hk
      simp [assocSet]
    · have hk' : ¬ k = k0 := fun e => hk e.symm
      simp only [assocSet, if_neg hk, List.map_cons, ih]
      by_cases hm : k ∈ tl.map Prod.fst
      · simp [hm, hk']
      · simp [hm, hk']

theorem assocSet_keys_nodup {α : Type} {l : List (String × α)} (k : String) (v : α)
    (h : (l.map Prod.fst).Nodup) : ((assocSet l k v).map Prod.fst).Nodup := by
  rw [assocSet_keys]
  by_cases hm : k ∈ l.map Prod.fst
  · simpa [hm] using h
  · simp [hm, List.nodup_append, h]

theorem bucketsFold_keys_nodup (entries : List (String × JsVal))
    (buckets : List (String × FindingNode))
    (h : (buckets.map Prod.fst).Nodup) :
    ((entries.foldl (fun b kv => if jsTruthy kv.2 && jsTypeofObject kv.2 then
        assocSet b kv.1 (mkFindingNode kv.2) else b) buckets).map Prod.fst).Nodup := by
  induction entries generalizing buckets with
  | nil => simpa
  | cons e tl ih =>
    simp only [List.foldl_cons]
    by_cases hg : (jsTruthy e.2 && jsTypeofObject e.2) = true
    · rw [if_pos hg]
      exact ih _ (assocSet_keys_nodup _ _ h)
    · rw [if_neg hg]
      exact ih _ h

theorem addSourceBuckets_keys_nodup (buckets : List (String × FindingNode)) (src : JsVal)
    (h : (buckets.map Prod.fst).Nodup) :
    ((addSourceBuckets buckets src).map Prod.fst).Nodup := by
  unfold addSourceBuckets
  by_cases hg : (jsTruthy src && jsTypeofObject src) = true
  · rw [if_pos hg]
    exact bucketsFold_keys_nodup _ _ h
  · rw [if_neg hg]
    exact h

theorem collectBuckets_keys_nodup (raw : JsVal) :
    ((collectBuckets raw).map Prod.fst).Nodup := by
  unfold collectBuckets
  simp only [List.foldl_cons, List.foldl_nil]
  exact addSourceBuckets_keys_nodup _ _
    (addSourceBuckets_keys_nodup _ _ (addSourceBuckets_keys_nodup _ _ (by simp)))

theorem mem_assocSet {α : Type} {kv : String × α} {l : List (String × α)} {k : String}
    {v : α} (h : kv ∈ assocSet l k v) : kv ∈ l ∨ kv = (k, v) := by
  induction l with
  | nil => simpa [assocSet] using h
  | cons hd tl ih =>
    obtain ⟨k0, v0⟩ := hd
    by_cases hk : k0 = k
    · subst hk
      simp only [assocSet, if_pos rfl] at h
      rcases List.mem_cons.mp h with he | hm
      · exact Or.inr he
      · exact Or.inl (List.mem_cons_of_mem _ hm)
    · simp only [assocSet, if_neg hk] at h
      rcases List.mem_cons.mp h with he | hm
      · exact Or.inl (he ▸ List.mem_cons_self _ _)
      · rcases ih hm with h1 | h2
        · exact Or.inl (List.mem_cons_of_mem _ h1)
        · exact Or.inr h2

theorem mem_bucketsFold {kv : String × FindingNode} (entries : List (String × JsVal))
    (buckets : List (String × FindingNode))
    (h : kv ∈ entries.foldl (fun b kv => if jsTruthy kv.2 && jsTypeofObject kv.2 then
        assocSet b kv.1 (mkFindingNode kv.2) else b) buckets) :
    kv ∈ buckets ∨ ∃ v, kv.2 = mkFindingNode v := by
  induction entries generalizing buckets with
  | nil => exact Or.inl h
  | cons e tl ih =>
    simp only [List.foldl_cons] at h
    rcases ih _ h with hmem | hex
    · by_cases hg : (jsTruthy e.2 && jsTypeofObject e.2) = true
      · rw [if_pos hg] at hmem
        rcases mem_assocSet hmem with h1 | h2
        · exact Or.inl h1
        · exact Or.inr ⟨e.2, by rw [h2]⟩
      · rw [if_neg hg] at hmem
        exact Or.inl hmem
    · exact Or.inr hex

theorem mem_addSourceBuckets {kv : String × FindingNode}
    {buckets : List (String × FindingNode)} {src : JsVal}
    (h : kv ∈ addSourceBuckets buckets src) :
    kv ∈ buckets ∨ ∃ v, kv.2 = mkFindingNode v := by
  unfold addSourceBuckets at h
  by_cases hg : (jsTruthy src && jsTypeofObject src) = true
  · rw [if_pos hg] at h
    exact mem_bucketsFold _ _ h
  · rw [if_neg hg] at h
    exact Or.inl h

theorem mem_collectBuckets {kv : String × FindingNode} {raw : JsVal}
    (h : kv ∈ collectBuckets raw) : ∃ v, kv.2 = mkFindingNode v := by
  unfold collectBuckets at h
  simp only [List.foldl_cons, List.foldl_nil] at h
  rcases mem_addSourceBuckets h with h | hx
  · rcases mem_addSourceBuckets h with h | hx
    · rcases mem_addSourceBuckets h with h | hx
      · cases h
      · exact hx
    · exact hx
  · exact hx

theorem assocGet_of_mem_nodup {α : Type} {l : List (String × α)} {k : String} {v : α}
    (hnod : (l.map Prod.fst).Nodup) (hm : (k, v) ∈ l) : assocGet l k = some v := by
  induction l with
  | nil => cases hm
  | cons hd tl ih =>
    obtain ⟨k0, v0⟩ := hd
    simp only [List.map_cons, List.nodup_cons] at hnod
    rcases List.mem_cons.mp hm with he | hmem
    · obtain ⟨h1, h2⟩ := Prod.mk.injEq .. ▸ he
      subst h1
      subst h2
      simp [assocGet]
    · have hk : ¬ k0 = k := by
        intro e
        subst e
        exact hnod.1 (List.mem_map_of_mem Prod.fst hmem)
      simp only [assocGet, if_neg hk]
      exact ih hnod.2 hmem

theorem computeBaseDetails_factor {ws : List (String × ℚ)}
    {a28 : List (String × FindingNode)} {bd : ℚ × List (String × ℚ)}
    (h : computeBaseDetails ws a28 = some bd) :
    ∀ kv ∈ ws, (STATUS_TO_FACTOR (statusIn a28 kv.1)).isSome = true := by
  induction ws generalizing bd with
  | nil =>
    intro kv hm
    cases hm
  | cons hd tl ih =>
    obtain ⟨k, w⟩ := hd
    simp only [computeBaseDetails, Option.bind_eq_some, Option.map_eq_some'] at h
    obtain ⟨f, hf, bd', hbd', _⟩ := h
    intro kv hm
    rcases List.mem_cons.mp hm with he | hmem
    · rw [he]
      simp [hf]
    · exact ih hbd' kv hmem

theorem statusSafe_of_factor {v : JsVal} (h : (STATUS_TO_FACTOR v).isSome = true) :
    statusSafe v = true := by
  unfold STATUS_TO_FACTOR at h
  by_cases ht : jsTruthy v = true
  · rw [if_pos ht] at h
    cases v <;> simp_all [statusSafe, isStringVal, jsTruthy]
  · have ht' : jsTruthy v = false := by simpa using ht
    simp [statusSafe, ht']

theorem normalizeActs_sev {l : List JsVal} {acts : List ActionOut}
    (h : normalizeActs l = some acts) :
    ∀ a ∈ acts, a.severity.isNullish = false := by
  induction l generalizing acts with
  | nil =>
    intro a ha
    simp only [normalizeActs, Option.some.injEq] at h
    rw [← h] at ha
    cases ha
  | cons x xs ih =>
    simp only [normalizeActs] at h
    by_cases hx : x.isNullish = true
    · rw [if_pos hx] at h
      cases h
    · rw [if_neg hx] at h
      simp only [Option.map_eq_some'] at h
      obtain ⟨tail, htail, hacts⟩ := h
      intro a ha
      rw [← hacts] at ha
      rcases List.mem_cons.mp ha with he | hm
      · rw [he]
        exact jsCoalesce_str_not_nullish _ _
      · exact ih htail a hm

theorem contains_A28_not_EXTRA {k : String} (h : A28_KEYS.contains k = true) :
    EXTRA_KEYS.contains k = false := by
  simp [A28_KEYS] at h
  rcases h with rfl | rfl | rfl | rfl | rfl | rfl | rfl | rfl <;> rfl

theorem contains_EXTRA_not_A28 {k : String} (h : EXTRA_KEYS.contains k = true) :
    A28_KEYS.contains k = false := by
  simp [EXTRA_KEYS] at h
  rcases h with rfl | rfl | rfl <;> rfl

theorem A28_weight {k : String} (h : A28_KEYS.contains k = true) :
    ∃ w, (k, w) ∈ WEIGHTS := by
  simp [A28_KEYS] at h
  rcases h with rfl | rfl | rfl | rfl | rfl | rfl | rfl | rfl
  · exact ⟨15, by simp [WEIGHTS]⟩
  · exact ⟨10, by simp [WEIGHTS]⟩
  · exact ⟨20, by simp [WEIGHTS]⟩
  · exact ⟨15, by simp [WEIGHTS]⟩
  · exact ⟨10, by simp [WEIGHTS]⟩
  · exact ⟨10, by simp [WEIGHTS]⟩
  · exact ⟨10, by simp [WEIGHTS]⟩
  · exact ⟨10, by simp [WEIGHTS]⟩

/-- Structural invariants of every record `reconcileAndScore` produces —
exactly what a second application needs in order to reproduce the record. -/
structure OutInv (o : OutRec) : Prop where
  exec_nn : o.executive_summary.isNullish = false
  title_nn : o.meta_title.isNullish = false
  date_nn : o.meta_date.isNullish = false
  rationale_nn : o.risk_rationale.isNullish = false
  a28_keys : ∀ kv ∈ o.article28, A28_KEYS.contains kv.1 = true
  extra_keys : ∀ kv ∈ o.additional, EXTRA_KEYS.contains kv.1 = true
  a28_nodup : (o.article28.map Prod.fst).Nodup
  extra_nodup : (o.additional.map Prod.fst).Nodup
  a28_nodes : ∀ kv ∈ o.article28, kv.2.evidence.length ≤ 2 ∧
    ∀ e ∈ kv.2.evidence, trimQuote e.quote = e.quote
  extra_nodes : ∀ kv ∈ o.additional, kv.2.evidence.length ≤ 2 ∧
    ∀ e ∈ kv.2.evidence, trimQuote e.quote = e.quote
  a28_status : ∀ kv ∈ o.article28, statusSafe kv.2.status = true
  acts_ok : ∀ a ∈ o.actions, jsTruthy a.category = true ∧ jsTruthy a.action = true ∧
    a.severity.isNullish = false
  score_eq : ∃ base details,
    computeBaseDetails WEIGHTS o.article28 = some (base, details) ∧
    o.score_details = details ++ [("bonus", computeBonus o.additional), ("penalties", 0),
      ("corrections", computeCorrections o.actions o.additional)] ∧
    o.overall = clamp100 (jsRound (base + computeBonus o.additional -
      computeCorrections o.actions o.additional))
  version_eq : o.version = "2025-10-31-stable2"

/-- Every finding bucket is well-formed: at most two evidence entries, all
quotes fixed by `trimQuote`. -/
theorem mkFindingNode_ok (v : JsVal) :
    (mkFindingNode v).evidence.length ≤ 2 ∧
    ∀ e ∈ (mkFindingNode v).evidence, trimQuote e.quote = e.quote := by
  constructor
  · simp only [mkFindingNode, List.length_map]
    exact List.length_take_le 2 _
  · intro e he
    simp only [mkFindingNode, List.mem_map] at he
    obtain ⟨x, _, hx⟩ := he
    rw [← hx]
    simp only [mkEvidenceItem]
    exact trimQuote_idem _

/-- Theorem A: the first pass establishes the invariant. -/
theorem reconcile_inv {raw : JsVal} {out : OutRec}
    (h : reconcileAndScore raw = some out) : OutInv out := by
  obtain ⟨allActs, base, details, hA, hB, hout⟩ := reconcileAndScore_eq_some h
  have hnodA : ((List.filter (fun kv => A28_KEYS.contains kv.1)
      (collectBuckets raw)).map Prod.fst).Nodup :=
    List.Nodup.sublist (List.Sublist.map Prod.fst (List.filter_sublist _))
      (collectBuckets_keys_nodup raw)
  have hnodE : ((List.filter (fun kv => EXTRA_KEYS.contains kv.1)
      (collectBuckets raw)).map Prod.fst).Nodup :=
    List.Nodup.sublist (List.Sublist.map Prod.fst (List.filter_sublist _))
      (collectBuckets_keys_nodup raw)
  subst hout
  refine ⟨jsCoalesce_str_not_nullish _ _, jsCoalesce_str_not_nullish _ _,
    jsCoalesce_str_not_nullish _ _, jsCoalesce_str_not_nullish _ _,
    ?_, ?_, hnodA, hnodE, ?_, ?_, ?_, ?_, ⟨base, details, hB, rfl, rfl⟩, rfl⟩
  · intro kv hm
    exact (List.mem_filter.mp (show kv ∈ List.filter
      (fun kv => A28_KEYS.contains kv.1) (collectBuckets raw) from hm)).2
  · intro kv hm
    exact (List.mem_filter.mp (show kv ∈ List.filter
      (fun kv => EXTRA_KEYS.contains kv.1) (collectBuckets raw) from hm)).2
  · intro kv hm
    obtain ⟨v, hv⟩ := mem_collectBuckets (List.mem_filter.mp (show kv ∈ List.filter
      (fun kv => A28_KEYS.contains kv.1) (collectBuckets raw) from hm)).1
    rw [hv]
    exact mkFindingNode_ok v
  · intro kv hm
    obtain ⟨v, hv⟩ := mem_collectBuckets (List.mem_filter.mp (show kv ∈ List.filter
      (fun kv => EXTRA_KEYS.contains kv.1) (collectBuckets raw) from hm)).1
    rw [hv]
    exact mkFindingNode_ok v
  · intro kv hm
    have hm' : kv ∈ List.filter (fun kv => A28_KEYS.contains kv.1) (collectBuckets raw) := hm
    obtain ⟨w, hw⟩ := A28_weight (List.mem_filter.mp hm').2
    have hf := computeBaseDetails_factor hB (kv.1, w) hw
    have hget : assocGet (List.filter (fun kv => A28_KEYS.contains kv.1)
        (collectBuckets raw)) kv.1 = some kv.2 := by
      obtain ⟨k1, v1⟩ := kv
      exact assocGet_of_mem_nodup hnodA hm'
    rw [show statusIn (List.filter (fun kv => A28_KEYS.contains kv.1)
        (collectBuckets raw)) kv.1 = kv.2.status from by
      unfold statusIn
      rw [hget]
      rfl] at hf
    exact statusSafe_of_factor hf
  · intro a ha
    have ha' : a ∈ List.filter (fun a => jsTruthy a.category && jsTruthy a.action) allActs := ha
    have h1 := (List.mem_filter.mp ha').2
    simp only [Bool.and_eq_true] at h1
    exact ⟨h1.1, h1.2, normalizeActs_sev hA a (List.mem_filter.mp ha').1⟩

/-- Rebuild lemma: a successful reconciliation spelled out explicitly. -/
theorem reconcileAndScore_build (raw : JsVal) (allActs : List ActionOut)
    (base : ℚ) (details : List (String × ℚ))
    (hA : normalizeActs (toArray (jsGetOpt raw "recommended_actions") ++
      toArray (jsGetOpt raw "actions")) = some allActs)
    (hB : computeBaseDetails WEIGHTS
      ((collectBuckets raw).filter fun kv => A28_KEYS.contains kv.1) = some (base, details)) :
    reconcileAndScore raw = some
      { executive_summary := jsCoalesce (jsGetOpt raw "executive_summary") (.str "")
        meta_title := jsCoalesce (jsGetOpt (jsGetOpt raw "contract_metadata") "title") (.str "")
        meta_date := jsCoalesce (jsGetOpt (jsGetOpt raw "contract_metadata") "date") (.str "")
        parties := (normalizeParties (jsCoalesce
          (jsGetOpt (jsGetOpt raw "contract_metadata") "parties")
          (jsCoalesce (jsGetOpt raw "parties") .null))).1
        processor_dpo := (normalizeParties (jsCoalesce
          (jsGetOpt (jsGetOpt raw "contract_metadata") "parties")
          (jsCoalesce (jsGetOpt raw "parties") .null))).2
        article28 := (collectBuckets raw).filter fun kv => A28_KEYS.contains kv.1
        additional := (collectBuckets raw).filter fun kv => EXTRA_KEYS.contains kv.1
        actions := allActs.filter (fun a => jsTruthy a.category && jsTruthy a.action)
        score_details := details ++ [("bonus", computeBonus
            ((collectBuckets raw).filter fun kv => EXTRA_KEYS.contains kv.1)),
          ("penalties", 0),
          ("corrections", computeCorrections
            (allActs.filter (fun a => jsTruthy a.category && jsTruthy a.action))
            ((collectBuckets raw).filter fun kv => EXTRA_KEYS.contains kv.1))]
        overall := clamp100 (jsRound (base + computeBonus
            ((collectBuckets raw).filter fun kv => EXTRA_KEYS.contains kv.1) -
          computeCorrections
            (allActs.filter (fun a => jsTruthy a.category && jsTruthy a.action))
            ((collectBuckets raw).filter fun kv => EXTRA_KEYS.contains kv.1)))
        risk_overall := (jsAsNumber (jsGetOpt (jsGetOpt raw "risk_score") "overall")).getD
          (100 - (clamp100 (jsRound (base + computeBonus
              ((collectBuckets raw).filter fun kv => EXTRA_KEYS.contains kv.1) -
            computeCorrections
              (allActs.filter (fun a => jsTruthy a.category && jsTruthy a.action))
              ((collectBuckets raw).filter fun kv => EXTRA_KEYS.contains kv.1))) : ℤ))
        risk_rationale := jsCoalesce (jsGetOpt (jsGetOpt raw "risk_score") "rationale") (.str "")
        version := "2025-10-31-stable2" } := by
  unfold reconcileAndScore
  dsimp only
  rw [hA, Option.some_bind, hB, Option.some_bind]

/-- Theorem B: re-running the reconciler on the encoded result succeeds and
reproduces the record, except that `processor_dpo` is dropped (the encoder
writes it into `contract_metadata`, but the reconciler never reads that key
back). -/
theorem reconcile_toJs {o : OutRec} (hinv : OutInv o) :
    reconcileAndScore o.toJs = some { o with processor_dpo := none } := by
  obtain ⟨exec, title, date, parties, dpo, a28, extra, acts, sd, ov, ro, rr, ver⟩ := o
  obtain ⟨he, hti, hda, hra, hak, hek, han, hen, hand, hend, has, hact, hsc, hver⟩ := hinv
  obtain ⟨base, details, hB0, hsd, hov⟩ := hsc
  simp only at he hti hda hra hak hek han hen hand hend has hact hB0 hsd hov hver
  -- the encoded record and its relevant projections
  have hA' : normalizeActs (toArray (jsGetOpt
      (OutRec.toJs ⟨exec, title, date, parties, dpo, a28, extra, acts, sd, ov, ro, rr, ver⟩)
        "recommended_actions") ++
      toArray (jsGetOpt
      (OutRec.toJs ⟨exec, title, date, parties, dpo, a28, extra, acts, sd, ov, ro, rr, ver⟩)
        "actions")) = some acts := by
    cases dpo <;>
      exact (List.append_nil (acts.map ActionOut.toJs)) ▸ normalizeActs_toJs acts hact
  -- the bucket table of the encoded record
  have hmap28 : a28.map (fun kv => (kv.1, mkFindingNode kv.2.toJs)) = a28 := by
    rw [show a28.map (fun kv => (kv.1, mkFindingNode kv.2.toJs)) = a28.map id from
      List.map_congr_left fun kv hkv => ?_, List.map_id]
    have hok := hand kv hkv
    rw [mkFindingNode_toJs kv.2 hok.1 hok.2]
    rfl
  have hmapEx : extra.map (fun kv => (kv.1, mkFindingNode kv.2.toJs)) = extra := by
    rw [show extra.map (fun kv => (kv.1, mkFindingNode kv.2.toJs)) = extra.map id from
      List.map_congr_left fun kv hkv => ?_, List.map_id]
    have hok := hend kv hkv
    rw [mkFindingNode_toJs kv.2 hok.1 hok.2]
    rfl
  have hvals28 : ∀ kv ∈ a28.map (fun kv => (kv.1, kv.2.toJs)),
      (jsTruthy kv.2 && jsTypeofObject kv.2) = true := by
    intro kv hm
    simp only [List.mem_map] at hm
    obtain ⟨x, _, hx⟩ := hm
    rw [← hx]
    rfl
  have hkeys28 : ((a28.map (fun kv => (kv.1, kv.2.toJs))).map Prod.fst).Nodup := by
    rw [show (a28.map (fun kv => (kv.1, kv.2.toJs))).map Prod.fst =
      a28.map Prod.fst from by simp]
    exact han
  have hb1 : addSourceBuckets []
      (.obj (a28.map (fun kv => (kv.1, kv.2.toJs)))) = a28 := by
    rw [show addSourceBuckets [] (JsVal.obj (a28.map (fun kv => (kv.1, kv.2.toJs)))) =
      (a28.map (fun kv => (kv.1, kv.2.toJs))).foldl (fun b kv =>
        if jsTruthy kv.2 && jsTypeofObject kv.2 then
          assocSet b kv.1 (mkFindingNode kv.2) else b) [] from rfl]
    rw [bucketsFold_fresh _ _ hvals28 (fun kv _ kv' h' => absurd h' (by simp)) hkeys28]
    rw [List.nil_append, List.map_map]
    exact hmap28
  have hvalsEx : ∀ kv ∈ extra.map (fun kv => (kv.1, kv.2.toJs)),
      (jsTruthy kv.2 && jsTypeofObject kv.2) = true := by
    intro kv hm
    simp only [List.mem_map] at hm
    obtain ⟨x, _, hx⟩ := hm
    rw [← hx]
    rfl
  have hkeysEx : ((extra.map (fun kv => (kv.1, kv.2.toJs))).map Prod.fst).Nodup := by
    rw [show (extra.map (fun kv => (kv.1, kv.2.toJs))).map Prod.fst =
      extra.map Prod.fst from by simp]
    exact hen
  have hfreshEx : ∀ kv ∈ extra.map (fun kv => (kv.1, kv.2.toJs)),
      ∀ kv' ∈ a28, kv'.1 ≠ kv.1 := by
    intro kv hm kv' h'
    simp only [List.mem_map] at hm
    obtain ⟨x, hxm, hx⟩ := hm
    intro he2
    have h1 : A28_KEYS.contains kv'.1 = true := hak kv' h'
    have h2 : EXTRA_KEYS.contains kv.1 = true := by
      rw [← hx]
      exact hek x hxm
    rw [he2] at h1
    rw [contains_EXTRA_not_A28 h2] at h1
    cases h1
  have hb2 : addSourceBuckets a28
      (.obj (extra.map (fun kv => (kv.1, kv.2.toJs)))) = a28 ++ extra := by
    rw [show addSourceBuckets a28 (JsVal.obj (extra.map (fun kv => (kv.1, kv.2.toJs)))) =
      (extra.map (fun kv => (kv.1, kv.2.toJs))).foldl (fun b kv =>
        if jsTruthy kv.2 && jsTypeofObject kv.2 then
          assocSet b kv.1 (mkFindingNode kv.2) else b) a28 from rfl]
    rw [bucketsFold_fresh _ _ hvalsEx hfreshEx hkeysEx]
    rw [List.map_map]
    refine congrArg (a28 ++ ·) ?_
    exact hmapEx
  have hbk : collectBuckets
      (OutRec.toJs ⟨exec, title, date, parties, dpo, a28, extra, acts, sd, ov, ro, rr, ver⟩) =
      a28 ++ extra := by
    unfold collectBuckets
    simp only [List.foldl_cons, List.foldl_nil]
    show addSourceBuckets (addSourceBuckets (addSourceBuckets []
      (JsVal.obj (a28.map (fun kv => (kv.1, kv.2.toJs)))))
      (JsVal.obj (extra.map (fun kv => (kv.1, kv.2.toJs))))) JsVal.undef = a28 ++ extra
    rw [hb1, hb2]
    rfl
  have hfa : (a28 ++ extra).filter (fun kv => A28_KEYS.contains kv.1) = a28 := by
    rw [List.filter_append]
    rw [List.filter_eq_self.mpr hak]
    rw [List.filter_eq_nil_iff.mpr (fun kv hm => by
      simpa using contains_EXTRA_not_A28 (hek kv hm)), List.append_nil]
  have hfe : (a28 ++ extra).filter (fun kv => EXTRA_KEYS.contains kv.1) = extra := by
    rw [List.filter_append]
    rw [List.filter_eq_self.mpr hek]
    rw [List.filter_eq_nil_iff.mpr (fun kv hm => by
      simpa using contains_A28_not_EXTRA (hak kv hm)), List.nil_append]
  have hB' : computeBaseDetails WEIGHTS
      ((collectBuckets (OutRec.toJs
        ⟨exec, title, date, parties, dpo, a28, extra, acts, sd, ov, ro, rr, ver⟩)).filter
        fun kv => A28_KEYS.contains kv.1) = some (base, details) := by
    rw [hbk, hfa]
    exact hB0
  rw [reconcileAndScore_build _ acts base details hA' hB']
  rw [hbk, hfa, hfe]
  rw [filter_actions_id acts (fun a ha => ⟨(hact a ha).1, (hact a ha).2.1⟩)]
  refine congrArg some ?_
  cases dpo <;>
  · simp only [OutRec.mk.injEq]
    and_intros <;>
      first
        | rfl
        | exact jsCoalesce_of_not_nullish _ he
        | exact jsCoalesce_of_not_nullish _ hti
        | exact jsCoalesce_of_not_nullish _ hda
        | exact jsCoalesce_of_not_nullish _ hra
        | rw [hsd]
        | rw [hov]
        | rw [hver]
        | trivial

/-- A raw record whose contract metadata carries a processor DPO. -/
def dpoRaw : JsVal :=
  .obj [("contract_metadata", .obj [("parties", .obj
    [("controller", .str "Acme"), ("processor", .str "Bob"),
     ("processor_dpo", .str "Eve")])])]

/-- C8 (counterexample): reconcileAndScore is not idempotent.  On `dpoRaw`
the first pass keeps `processor_dpo = "Eve"`, but re-running the function on
the serialized output drops the field to `null`, so the second result differs
from the first. -/
theorem c8_counterexample :
    ((reconcileAndScore dpoRaw).map OutRec.processor_dpo = some (some "Eve")) ∧
    (((reconcileAndScore dpoRaw).bind (fun o => reconcileAndScore o.toJs)).map
      OutRec.processor_dpo = some none) :=
  ⟨rfl, rfl⟩

/-- C8 (amended): reapplying reconcileAndScore to the serialization of any
of its outputs reproduces that output exactly, except that the
`processor_dpo` field is reset to `null`; in particular the function is
idempotent on every record whose first pass yields no processor DPO. -/
theorem c8_reapply {raw : JsVal} {out : OutRec}
    (h : reconcileAndScore raw = some out) :
    reconcileAndScore out.toJs = some { out with processor_dpo := none } :=
  reconcile_toJs (reconcile_inv h)

/-- Witness for C8: the amended theorem applied to the empty object input. -/
theorem c8_reapply_witness :
    reconcileAndScore (Option.get (reconcileAndScore (JsVal.obj [])) (by rfl)).toJs =
      some { Option.get (reconcileAndScore (JsVal.obj [])) (by rfl) with
             processor_dpo := none } :=
  c8_reapply (Option.some_get (by rfl)).symm

/-! ### Chunker embedding: `estimateTokens`, `hardSplitByChars`,
`chunkTextDeterministic` (source lines 24-104). -/

/-- `Math.ceil(s.length / 4)`. -/
def estimateTokens (s : String) : ℕ := (s.data.length + 3) / 4

/-- Character-list core of JS `String.prototype.trim`. -/
def trimChars (l : List Char) : List Char :=
  ((l.dropWhile isJsWs).reverse.dropWhile isJsWs).reverse

/-- JS `String.prototype.trim` (strip leading and trailing whitespace). -/
def jsTrim (s : String) : String := String.mk (trimChars s.data)

/-- One recursion step per iteration of the `for (let i = 0; i < s.length;
i += maxChars)` loop of `hardSplitByChars`; `fuel` bounds the number of
iterations (the JS loop diverges when `maxChars = 0`, a case that callers
with a positive hard-token limit never reach). -/
def hardSplitGo (s : List Char) (maxChars : ℕ) : ℕ → ℕ → List (List Char)
  | _, 0 => []
  | i, fuel + 1 =>
    if i < s.length then
      (s.drop i).take maxChars :: hardSplitGo s maxChars (i + maxChars) fuel
    else []

def hardSplitByChars (s : String) (maxChars : ℕ) : List String :=
  (hardSplitGo s.data maxChars 0 (s.data.length + 1)).map String.mk

/-- `text.split(/\n{2,}/)`: a maximal run of two or more newlines separates
pieces (the regex quantifier is greedy).  `acc` is the current piece in
reverse and `nl` counts the newlines seen since the last other character. -/
def splitNNAux : List Char → List Char → ℕ → List (List Char)
  | [], acc, nl =>
    if 2 ≤ nl then [acc.reverse, []]
    else [acc.reverse ++ List.replicate nl '\n']
  | c :: rest, acc, nl =>
    if c = '\n' then splitNNAux rest acc (nl + 1)
    else if 2 ≤ nl then acc.reverse :: splitNNAux rest [c] 0
    else splitNNAux rest (c :: (List.replicate nl '\n' ++ acc)) 0

def splitNN (s : String) : List String :=
  (splitNNAux s.data [] 0).map String.mk

/-- The mutable loop state of `chunkTextDeterministic`. -/
structure ChunkSt where
  chunks : List String
  buf : String
  bufTok : ℕ

/-- The local `flush` closure: push the trimmed buffer if nonempty. -/
def flushSt (st : ChunkSt) : ChunkSt :=
  if st.buf = "" then st else ⟨st.chunks ++ [jsTrim st.buf], "", 0⟩

/-- The inner `for (const part of parts)` loop: push each trimmed part,
stopping as soon as `maxChunks` chunks exist (`break`). -/
def pushParts (maxChunks : ℕ) : List String → List String → List String
  | chunks, [] => chunks
  | chunks, p :: ps =>
    let chunks' := chunks ++ [jsTrim p]
    if maxChunks ≤ chunks'.length then chunks'
    else pushParts maxChunks chunks' ps

/-- The main `for (const u of units)` loop.  An oversized unit flushes the
buffer and is hard-split by characters; otherwise the unit starts or extends
the buffer, closing it when the target size would be exceeded.  The loop
breaks once `maxChunks` chunks exist (the `continue` in the `bufTok === 0`
arm skips that check). -/
def chunkGo (target hardMax maxChunks : ℕ) : List String → ChunkSt → ChunkSt
  | [], st => st
  | u :: us, st =>
    let t := estimateTokens u + 2
    if hardMax < t then
      let st1 := flushSt st
      let cs := pushParts maxChunks st1.chunks (hardSplitByChars u (hardMax * 4))
      if maxChunks ≤ cs.length then ⟨cs, st1.buf, st1.bufTok⟩
      else chunkGo target hardMax maxChunks us ⟨cs, st1.buf, st1.bufTok⟩
    else if st.bufTok = 0 then
      chunkGo target hardMax maxChunks us ⟨st.chunks, u, t⟩
    else if st.bufTok + t ≤ target then
      let st1 : ChunkSt := ⟨st.chunks, st.buf ++ "\n\n" ++ u, st.bufTok + t⟩
      if maxChunks ≤ st1.chunks.length then st1
      else chunkGo target hardMax maxChunks us st1
    else
      let st1 : ChunkSt := ⟨(flushSt st).chunks, u, t⟩
      if maxChunks ≤ st1.chunks.length then st1
      else chunkGo target hardMax maxChunks us st1

/-- `units = text.split(/\n{2,}/).map(s => s.trim()).filter(Boolean)`. -/
def chunkUnits (text : String) : List String :=
  ((splitNN text).map jsTrim).filter (fun s => s ≠ "")

/-- `chunkTextDeterministic` up to (and including) the final `flush()`,
before the `BLOCK i/n` headers are attached. -/
def chunkCore (text : String) (target hardMax maxChunks : ℕ) : List String :=
  if jsTrim text = "" then []
  else (flushSt (chunkGo target hardMax maxChunks (chunkUnits text) ⟨[], "", 0⟩)).chunks

def chunkTextDeterministic (text : String) (target hardMax maxChunks : ℕ) : List String :=
  let chunks := chunkCore text target hardMax maxChunks
  (chunks.take maxChunks).mapIdx fun i c =>
    "BLOCK " ++ toString (i + 1) ++ "/" ++ toString (min chunks.length maxChunks) ++ "\n\n" ++ c

theorem trimChars_length_le (l : List Char) : (trimChars l).length ≤ l.length := by
  unfold trimChars
  calc (((l.dropWhile isJsWs).reverse.dropWhile isJsWs).reverse).length
      = ((l.dropWhile isJsWs).reverse.dropWhile isJsWs).length := List.length_reverse _
    _ ≤ (l.dropWhile isJsWs).reverse.length := (List.dropWhile_sublist _).length_le
    _ = (l.dropWhile isJsWs).length := List.length_reverse _
    _ ≤ l.length := (List.dropWhile_sublist _).length_le

theorem jsTrim_length_le (s : String) : (jsTrim s).data.length ≤ s.data.length :=
  trimChars_length_le s.data

theorem estimateTokens_le_of_len {s : String} {B : ℕ} (h : s.data.length ≤ 4 * B) :
    estimateTokens s ≤ B := by
  unfold estimateTokens
  omega

theorem hardSplitGo_len (s : List Char) (n : ℕ) :
    ∀ fuel i, ∀ p ∈ hardSplitGo s n i fuel, p.length ≤ n := by
  intro fuel
  induction fuel with
  | zero => intro i p hp; cases hp
  | succ fuel ih =>
    intro i p hp
    unfold hardSplitGo at hp
    by_cases hi : i < s.length
    · rw [if_pos hi] at hp
      rcases List.mem_cons.mp hp with rfl | hp
      · exact List.length_take_le _ _
      · exact ih _ p hp
    · rw [if_neg hi] at hp
      cases hp

theorem hardSplitByChars_len {s : String} {n : ℕ} :
    ∀ p ∈ hardSplitByChars s n, p.data.length ≤ n := by
  intro p hp
  obtain ⟨l, hl, rfl⟩ := List.mem_map.mp hp
  exact hardSplitGo_len s.data n _ _ l hl

theorem flushSt_bound {st : ChunkSt} {M : ℕ}
    (hc : ∀ c ∈ st.chunks, estimateTokens c ≤ M)
    (hb : st.buf.data.length ≤ 4 * st.bufTok) (ht : st.bufTok ≤ M) :
    ∀ c ∈ (flushSt st).chunks, estimateTokens c ≤ M := by
  intro c hm
  unfold flushSt at hm
  by_cases h0 : st.buf = ""
  · rw [if_pos h0] at hm
    exact hc c hm
  · rw [if_neg h0] at hm
    rcases List.mem_append.mp hm with hm | hm
    · exact hc c hm
    · rcases List.mem_singleton.mp hm with rfl
      refine estimateTokens_le_of_len ?_
      calc (jsTrim st.buf).data.length ≤ st.buf.data.length := jsTrim_length_le _
        _ ≤ 4 * st.bufTok := hb
        _ ≤ 4 * M := by omega

theorem pushParts_bound {maxChunks M : ℕ} :
    ∀ ps chunks, (∀ c ∈ chunks, estimateTokens c ≤ M) →
    (∀ p ∈ ps, estimateTokens (jsTrim p) ≤ M) →
    ∀ c ∈ pushParts maxChunks chunks ps, estimateTokens c ≤ M := by
  intro ps
  induction ps with
  | nil => intro chunks hc _ c hm; exact hc c hm
  | cons p ps ih =>
    intro chunks hc hp c hm
    unfold pushParts at hm
    have hc' : ∀ c ∈ chunks ++ [jsTrim p], estimateTokens c ≤ M := by
      intro c hm
      rcases List.mem_append.mp hm with hm | hm
      · exact hc c hm
      · rcases List.mem_singleton.mp hm with rfl
        exact hp p (List.mem_cons_self _ _)
    by_cases hl : maxChunks ≤ (chunks ++ [jsTrim p]).length
    · simp only [if_pos hl] at hm
      exact hc' c hm
    · simp only [if_neg hl] at hm
      exact ih _ hc' (fun q hq => hp q (List.mem_cons_of_mem _ hq)) c hm

theorem chunkGo_bound (target hardMax maxChunks : ℕ) :
    ∀ us st, (∀ c ∈ st.chunks, estimateTokens c ≤ max target hardMax) →
    st.buf.data.length ≤ 4 * st.bufTok → st.bufTok ≤ max target hardMax →
    ∀ c ∈ (flushSt (chunkGo target hardMax maxChunks us st)).chunks,
      estimateTokens c ≤ max target hardMax := by
  intro us
  induction us with
  | nil => intro st hc hb ht; exact flushSt_bound hc hb ht
  | cons u us ih =>
    intro st hc hb ht
    unfold chunkGo
    have hst1 : ∀ c ∈ (flushSt st).chunks, estimateTokens c ≤ max target hardMax :=
      flushSt_bound hc hb ht
    have hbuf1 : (flushSt st).buf.data.length ≤ 4 * (flushSt st).bufTok := by
      unfold flushSt
      by_cases h0 : st.buf = ""
      · rw [if_pos h0]; exact hb
      · rw [if_neg h0]; simp
    have htok1 : (flushSt st).bufTok ≤ max target hardMax := by
      unfold flushSt
      by_cases h0 : st.buf = ""
      · rw [if_pos h0]; exact ht
      · rw [if_neg h0]; simp
    by_cases h1 : hardMax < estimateTokens u + 2
    · rw [if_pos h1]
      have hcs : ∀ c ∈ pushParts maxChunks (flushSt st).chunks
          (hardSplitByChars u (hardMax * 4)), estimateTokens c ≤ max target hardMax := by
        refine pushParts_bound _ _ hst1 ?_
        intro p hp
        refine estimateTokens_le_of_len ?_
        have h4 : (jsTrim p).data.length ≤ p.data.length := jsTrim_length_le p
        have h5 : p.data.length ≤ hardMax * 4 := hardSplitByChars_len p hp
        have h6 : hardMax ≤ max target hardMax := le_max_right _ _
        omega
      by_cases h2 : maxChunks ≤ (pushParts maxChunks (flushSt st).chunks
          (hardSplitByChars u (hardMax * 4))).length
      · rw [if_pos h2]
        exact flushSt_bound hcs hbuf1 htok1
      · rw [if_neg h2]
        exact ih _ hcs hbuf1 htok1
    · rw [if_neg h1]
      have hu4 : u.data.length ≤ 4 * (estimateTokens u + 2) := by
        unfold estimateTokens
        omega
      have hut : estimateTokens u + 2 ≤ max target hardMax :=
        le_trans (by omega) (le_max_right target hardMax)
      by_cases h2 : st.bufTok = 0
      · rw [if_pos h2]
        exact ih _ hc hu4 hut
      · rw [if_neg h2]
        by_cases h3 : st.bufTok + (estimateTokens u + 2) ≤ target
        · rw [if_pos h3]
          have hb' : (st.buf ++ "\n\n" ++ u).data.length ≤
              4 * (st.bufTok + (estimateTokens u + 2)) := by
            have hlen : (st.buf ++ "\n\n" ++ u).data.length =
                st.buf.data.length + 2 + u.data.length := by
              show (st.buf.data ++ "\n\n".data ++ u.data).length = _
              rw [List.length_append, List.length_append]
              rfl
            rw [hlen]
            unfold estimateTokens at hu4 ⊢
            omega
          have ht' : st.bufTok + (estimateTokens u + 2) ≤ max target hardMax :=
            le_trans h3 (le_max_left _ _)
          by_cases h4 : maxChunks ≤ st.chunks.length
          · rw [if_pos h4]
            exact flushSt_bound hc hb' ht'
          · rw [if_neg h4]
            exact ih _ hc hb' ht'
        · rw [if_neg h3]
          by_cases h4 : maxChunks ≤ (flushSt st).chunks.length
          · rw [if_pos h4]
            exact flushSt_bound hst1 hu4 hut
          · rw [if_neg h4]
            exact ih _ hst1 hu4 hut

/-- C6 (counterexample): with `targetTokens = 100`, `hardMaxTokens = 1`,
`maxChunks = 5`, the input `"abcdefgh"` is hard-split into 4-character parts,
and the `BLOCK i/n` headers then push each returned chunk to an estimated
size of 4 tokens, beyond `hardMaxTokens = 1`. -/
theorem c6_counterexample :
    ¬ ∀ c ∈ chunkTextDeterministic "abcdefgh" 100 1 5, estimateTokens c ≤ 1 := by
  decide

/-- C6 (amended): the chunk count never exceeds `maxChunks`, and every chunk
*body* (the list before the `BLOCK i/n` headers are prepended) has estimated
token size at most `max targetTokens hardMaxTokens`; the spec's bound
`hardMaxTokens` on the returned chunks themselves fails because of the
headers.  `0 < hardMax` excludes the parameter value at which the JS
hard-split loop does not terminate. -/
theorem c6_chunk_bounds (text : String) (target hardMax maxChunks : ℕ)
    (hh : 0 < hardMax) :
    (chunkTextDeterministic text target hardMax maxChunks).length ≤ maxChunks ∧
    ∀ c ∈ chunkCore text target hardMax maxChunks,
      estimateTokens c ≤ max target hardMax := by
  constructor
  · unfold chunkTextDeterministic
    rw [List.length_mapIdx]
    exact List.length_take_le _ _
  · intro c hm
    unfold chunkCore at hm
    by_cases h0 : jsTrim text = ""
    · rw [if_pos h0] at hm
      cases hm
    · rw [if_neg h0] at hm
      exact chunkGo_bound target hardMax maxChunks _ ⟨[], "", 0⟩
        (fun c h => absurd h (List.not_mem_nil c)) (by simp) (Nat.zero_le _) c hm

/-- Witness for C6 at `("hello", 7000, 8000, 28)`. -/
theorem c6_chunk_bounds_witness :
    0 < 8000 ∧
    ((chunkTextDeterministic "hello" 7000 8000 28).length ≤ 28 ∧
     ∀ c ∈ chunkCore "hello" 7000 8000 28, estimateTokens c ≤ max 7000 8000) :=
  ⟨by decide, c6_chunk_bounds "hello" 7000 8000 28 (by decide)⟩

/-! ### C7: what the chunk bodies preserve of the input text. -/

theorem dropWhile_head_not {p : Char → Bool} :
    ∀ {l : List Char} {a : Char}, (l.dropWhile p).head? = some a → p a = false := by
  intro l
  induction l with
  | nil => intro a h; cases h
  | cons c cs ih =>
    intro a h
    rw [List.dropWhile_cons] at h
    by_cases hc : p c = true
    · rw [if_pos hc] at h
      exact ih h
    · rw [if_neg hc] at h
      injection h with h
      subst h
      cases hpc : p c
      · rfl
      · exact absurd hpc hc

theorem dropWhile_fix {p : Char → Bool} {l : List Char}
    (h : ∀ a, l.head? = some a → p a = false) : l.dropWhile p = l := by
  cases l with
  | nil => rfl
  | cons c cs =>
    rw [List.dropWhile_cons, h c rfl]
    simp

theorem dropWhile_exists_append (p : Char → Bool) :
    ∀ l : List Char, ∃ w, l = w ++ l.dropWhile p := by
  intro l
  induction l with
  | nil => exact ⟨[], rfl⟩
  | cons c cs ih =>
    by_cases hc : p c = true
    · obtain ⟨w, hw⟩ := ih
      refine ⟨c :: w, ?_⟩
      rw [List.dropWhile_cons, if_pos hc, List.cons_append, ← hw]
    · refine ⟨[], ?_⟩
      rw [List.dropWhile_cons, if_neg hc]
      rfl

theorem trimChars_head {l : List Char} {a : Char}
    (h : (trimChars l).head? = some a) : isJsWs a = false := by
  unfold trimChars at h
  obtain ⟨w, hw⟩ := dropWhile_exists_append isJsWs (l.dropWhile isJsWs).reverse
  have hz : l.dropWhile isJsWs =
      ((l.dropWhile isJsWs).reverse.dropWhile isJsWs).reverse ++ w.reverse := by
    have h2 := congrArg List.reverse hw
    rw [List.reverse_reverse, List.reverse_append] at h2
    exact h2
  have hne : ((l.dropWhile isJsWs).reverse.dropWhile isJsWs).reverse ≠ [] := by
    intro h0
    rw [h0] at h
    cases h
  refine @dropWhile_head_not isJsWs l a ?_
  rw [hz, List.head?_append_of_ne_nil _ hne]
  exact h

theorem trimChars_last {l : List Char} {a : Char}
    (h : (trimChars l).reverse.head? = some a) : isJsWs a = false := by
  rw [trimChars, List.reverse_reverse] at h
  exact dropWhile_head_not h

theorem trimChars_of_edges {l : List Char}
    (h1 : ∀ a, l.head? = some a → isJsWs a = false)
    (h2 : ∀ a, l.reverse.head? = some a → isJsWs a = false) :
    trimChars l = l := by
  unfold trimChars
  rw [dropWhile_fix h1, dropWhile_fix h2]
  exact List.reverse_reverse l

theorem trimChars_idem (l : List Char) : trimChars (trimChars l) = trimChars l :=
  trimChars_of_edges (fun _ h => trimChars_head h) (fun _ h => trimChars_last h)

theorem jsTrim_idem (s : String) : jsTrim (jsTrim s) = jsTrim s :=
  congrArg String.mk (trimChars_idem s.data)

theorem mk_data_eq (s : String) : String.mk s.data = s := rfl

theorem data_ne_nil {s : String} (h : s ≠ "") : s.data ≠ [] := by
  intro h0
  apply h
  rw [← mk_data_eq s, h0]

theorem trimChars_append {A B : List Char}
    (hA : trimChars A = A) (hB : trimChars B = B) (hA0 : A ≠ []) (hB0 : B ≠ []) :
    trimChars (A ++ ('\n' :: '\n' :: B)) = A ++ ('\n' :: '\n' :: B) := by
  refine trimChars_of_edges ?_ ?_
  · intro a h
    rw [List.head?_append_of_ne_nil _ hA0] at h
    refine @trimChars_head A a ?_
    rw [hA]
    exact h
  · intro a h
    rw [List.reverse_append] at h
    have hne : ('\n' :: '\n' :: B).reverse ≠ [] := by simp
    rw [List.head?_append_of_ne_nil _ hne] at h
    have hrev : ('\n' :: '\n' :: B).reverse = B.reverse ++ ['\n', '\n'] := by simp
    rw [hrev] at h
    have hBne : B.reverse ≠ [] := by simpa using hB0
    rw [List.head?_append_of_ne_nil _ hBne] at h
    refine @trimChars_last B a ?_
    rw [hB]
    exact h

theorem jsTrim_append {a b : String}
    (ha : jsTrim a = a) (hb : jsTrim b = b) (ha0 : a ≠ "") (hb0 : b ≠ "") :
    jsTrim (a ++ "\n\n" ++ b) = a ++ "\n\n" ++ b := by
  have ha' : trimChars a.data = a.data := congrArg String.data ha
  have hb' : trimChars b.data = b.data := congrArg String.data hb
  have hd : (a ++ "\n\n" ++ b).data = a.data ++ ('\n' :: '\n' :: b.data) := by
    show a.data ++ "\n\n".data ++ b.data = _
    rw [List.append_assoc]
    rfl
  show String.mk (trimChars (a ++ "\n\n" ++ b).data) = a ++ "\n\n" ++ b
  rw [hd, trimChars_append ha' hb' (data_ne_nil ha0) (data_ne_nil hb0), ← hd, mk_data_eq]

/-- `chunks.join("\n\n")`: the canonical unit/chunk separator. -/
def joinNN : List String → String
  | [] => ""
  | [s] => s
  | s :: ss => s ++ "\n\n" ++ joinNN ss

theorem joinNN_cons_ne (s : String) {L : List String} (h : L ≠ []) :
    joinNN (s :: L) = s ++ "\n\n" ++ joinNN L := by
  cases L with
  | nil => exact absurd rfl h
  | cons t ts => rfl

theorem joinNN_merge (a b : String) :
    ∀ l r : List String,
    joinNN (l ++ (a ++ "\n\n" ++ b) :: r) = joinNN (l ++ a :: b :: r) := by
  intro l
  induction l with
  | nil =>
    intro r
    cases r with
    | nil =>
      simp only [List.nil_append]
      rw [joinNN_cons_ne a (by simp)]
      rfl
    | cons t ts =>
      simp only [List.nil_append]
      rw [joinNN_cons_ne _ (by simp), joinNN_cons_ne a (by simp),
        joinNN_cons_ne b (by simp)]
      simp [String.append_assoc]
  | cons s l ih =>
    intro r
    rw [List.cons_append, List.cons_append,
      joinNN_cons_ne s (by simp), joinNN_cons_ne s (by simp), ih r]

theorem flushSt_of_ne {st : ChunkSt} (h : st.buf ≠ "") :
    flushSt st = ⟨st.chunks ++ [jsTrim st.buf], "", 0⟩ := by
  unfold flushSt
  rw [if_neg h]

theorem flushSt_of_eq {st : ChunkSt} (h : st.buf = "") : flushSt st = st := by
  unfold flushSt
  rw [if_pos h]

theorem chunkGo_join (target hardMax maxChunks : ℕ) :
    ∀ us st,
    (∀ u ∈ us, estimateTokens u + 2 ≤ hardMax) →
    (∀ u ∈ us, u ≠ "" ∧ jsTrim u = u) →
    st.chunks.length + us.length + (if st.bufTok = 0 then 0 else 1) ≤ maxChunks →
    (st.bufTok = 0 → st.buf = "") →
    (st.bufTok ≠ 0 → st.buf ≠ "" ∧ jsTrim st.buf = st.buf) →
    joinNN ((flushSt (chunkGo target hardMax maxChunks us st)).chunks) =
      joinNN ((flushSt st).chunks ++ us) := by
  intro us
  induction us with
  | nil =>
    intro st _ _ _ _ _
    rw [List.append_nil]
    rfl
  | cons u us ih =>
    intro st h1 h2 hc hb0 hb1
    have hu1 : estimateTokens u + 2 ≤ hardMax := h1 u (List.mem_cons_self _ _)
    have hu2 := h2 u (List.mem_cons_self _ _)
    have h1' : ∀ v ∈ us, estimateTokens v + 2 ≤ hardMax :=
      fun v hv => h1 v (List.mem_cons_of_mem _ hv)
    have h2' : ∀ v ∈ us, v ≠ "" ∧ jsTrim v = v :=
      fun v hv => h2 v (List.mem_cons_of_mem _ hv)
    unfold chunkGo
    dsimp only
    rw [if_neg (by omega : ¬ hardMax < estimateTokens u + 2)]
    by_cases hz : st.bufTok = 0
    · rw [if_pos hz]
      have hbuf : st.buf = "" := hb0 hz
      have hcs : (⟨st.chunks, u, estimateTokens u + 2⟩ : ChunkSt).chunks.length
          + us.length +
          (if (⟨st.chunks, u, estimateTokens u + 2⟩ : ChunkSt).bufTok = 0
            then 0 else 1) ≤ maxChunks := by
        show st.chunks.length + us.length +
          (if estimateTokens u + 2 = 0 then 0 else 1) ≤ maxChunks
        rw [if_pos hz] at hc
        rw [if_neg (by omega : ¬ estimateTokens u + 2 = 0)]
        simp only [List.length_cons] at hc
        omega
      have happ := ih ⟨st.chunks, u, estimateTokens u + 2⟩ h1' h2' hcs
        (fun h => absurd h (by omega : ¬ estimateTokens u + 2 = 0))
        (fun _ => hu2)
      rw [happ, flushSt_of_eq hbuf, flushSt_of_ne
        (show (⟨st.chunks, u, estimateTokens u + 2⟩ : ChunkSt).buf ≠ "" from hu2.1)]
      show joinNN (st.chunks ++ [jsTrim u] ++ us) = joinNN (st.chunks ++ u :: us)
      rw [hu2.2]
      simp only [List.append_assoc, List.cons_append, List.nil_append]
    · rw [if_neg hz]
      obtain ⟨hbne, hbfix⟩ := hb1 hz
      rw [if_neg hz] at hc
      simp only [List.length_cons] at hc
      by_cases hfit : st.bufTok + (estimateTokens u + 2) ≤ target
      · rw [if_pos hfit]
        rw [if_neg (show ¬ maxChunks ≤
            (⟨st.chunks, st.buf ++ "\n\n" ++ u,
              st.bufTok + (estimateTokens u + 2)⟩ : ChunkSt).chunks.length from by
          show ¬ maxChunks ≤ st.chunks.length
          omega)]
        have hne2 : st.buf ++ "\n\n" ++ u ≠ "" := by
          intro h
          have hd : st.buf.data ++ "\n\n".data ++ u.data = ([] : List Char) :=
            congrArg String.data h
          exact data_ne_nil hu2.1 (List.append_eq_nil.mp hd).2
        have hfix2 : jsTrim (st.buf ++ "\n\n" ++ u) = st.buf ++ "\n\n" ++ u :=
          jsTrim_append hbfix hu2.2 hbne hu2.1
        have hcs : (⟨st.chunks, st.buf ++ "\n\n" ++ u,
            st.bufTok + (estimateTokens u + 2)⟩ : ChunkSt).chunks.length + us.length +
            (if (⟨st.chunks, st.buf ++ "\n\n" ++ u,
              st.bufTok + (estimateTokens u + 2)⟩ : ChunkSt).bufTok = 0
              then 0 else 1) ≤ maxChunks := by
          show st.chunks.length + us.length +
            (if st.bufTok + (estimateTokens u + 2) = 0 then 0 else 1) ≤ maxChunks
          rw [if_neg (by omega : ¬ st.bufTok + (estimateTokens u + 2) = 0)]
          omega
        have happ := ih ⟨st.chunks, st.buf ++ "\n\n" ++ u,
            st.bufTok + (estimateTokens u + 2)⟩ h1' h2' hcs
          (fun h => absurd h (by omega : ¬ st.bufTok + (estimateTokens u + 2) = 0))
          (fun _ => ⟨hne2, hfix2⟩)
        rw [happ, flushSt_of_ne (show (⟨st.chunks, st.buf ++ "\n\n" ++ u,
            st.bufTok + (estimateTokens u + 2)⟩ : ChunkSt).buf ≠ "" from hne2),
          flushSt_of_ne hbne]
        show joinNN (st.chunks ++ [jsTrim (st.buf ++ "\n\n" ++ u)] ++ us)
          = joinNN (st.chunks ++ [jsTrim st.buf] ++ u :: us)
        rw [hfix2, hbfix, List.append_assoc, List.append_assoc]
        exact joinNN_merge st.buf u st.chunks us
      · rw [if_neg hfit]
        rw [flushSt_of_ne hbne]
        rw [if_neg (show ¬ maxChunks ≤
            (⟨st.chunks ++ [jsTrim st.buf], "", 0⟩ : ChunkSt).chunks.length from by
          show ¬ maxChunks ≤ (st.chunks ++ [jsTrim st.buf]).length
          rw [List.length_append]
          simp only [List.length_singleton]
          omega)]
        have hcs : (⟨(⟨st.chunks ++ [jsTrim st.buf], "", 0⟩ : ChunkSt).chunks, u,
            estimateTokens u + 2⟩ : ChunkSt).chunks.length + us.length +
            (if (⟨(⟨st.chunks ++ [jsTrim st.buf], "", 0⟩ : ChunkSt).chunks, u,
              estimateTokens u + 2⟩ : ChunkSt).bufTok = 0 then 0 else 1) ≤ maxChunks := by
          show (st.chunks ++ [jsTrim st.buf]).length + us.length +
            (if estimateTokens u + 2 = 0 then 0 else 1) ≤ maxChunks
          rw [List.length_append, if_neg (by omega : ¬ estimateTokens u + 2 = 0)]
          simp only [List.length_singleton]
          omega
        have happ := ih ⟨st.chunks ++ [jsTrim st.buf], u, estimateTokens u + 2⟩
          h1' h2' hcs
          (fun h => absurd h (by omega : ¬ estimateTokens u + 2 = 0))
          (fun _ => hu2)
        rw [happ, flushSt_of_ne (show (⟨st.chunks ++ [jsTrim st.buf], u,
            estimateTokens u + 2⟩ : ChunkSt).buf ≠ "" from hu2.1)]
        show joinNN (st.chunks ++ [jsTrim st.buf] ++ [jsTrim u] ++ us)
          = joinNN (st.chunks ++ [jsTrim st.buf] ++ u :: us)
        rw [hu2.2]
        simp only [List.append_assoc, List.cons_append, List.nil_append]

/-- C7 (counterexample): the concatenation of the returned chunks does not
reconstruct the original text — even a single tiny chunk gains a
`BLOCK 1/1` header. -/
theorem c7_counterexample :
    String.join (chunkTextDeterministic "ab" 7000 8000 28) ≠ "ab" := by
  decide

/-- C7 (amended): what survives chunking is the double-newline-normalized
text, and only before the headers are attached: if no unit overflows
`hardMaxTokens` (no hard character split) and the units fit into `maxChunks`
(no truncation), then the chunk bodies joined with the canonical
double-newline separator equal the trimmed units joined the same way.  The
original text itself is not reconstructed: headers are prepended and the
original separators and edge whitespace are normalized away.  Determinism is
inherent: the embedding is a pure function of the text and the three
numeric parameters. -/
theorem c7_chunks_reconstruct (text : String) (target hardMax maxChunks : ℕ)
    (h0 : jsTrim text ≠ "")
    (h1 : ∀ u ∈ chunkUnits text, estimateTokens u + 2 ≤ hardMax)
    (h2 : (chunkUnits text).length ≤ maxChunks) :
    joinNN (chunkCore text target hardMax maxChunks) = joinNN (chunkUnits text) := by
  unfold chunkCore
  rw [if_neg h0]
  have hu : ∀ u ∈ chunkUnits text, u ≠ "" ∧ jsTrim u = u := by
    intro u hmem
    unfold chunkUnits at hmem
    have hne := (List.mem_filter.mp hmem).2
    have hmap := (List.mem_filter.mp hmem).1
    obtain ⟨v, _, rfl⟩ := List.mem_map.mp hmap
    exact ⟨by simpa using hne, jsTrim_idem v⟩
  have happ := chunkGo_join target hardMax maxChunks (chunkUnits text) ⟨[], "", 0⟩
    h1 hu (by simpa using h2) (fun _ => rfl) (fun h => absurd rfl h)
  rw [happ, flushSt_of_eq (show (⟨[], "", 0⟩ : ChunkSt).buf = "" from rfl)]
  rfl

/-! ### Result extractor embedding: `extractJson` (source lines 108-116).
`output.replace(/```(?:json)?/gi, "").replace(/```/g, "")` removes code
fences; `cleaned.match(/\x7b[\s\S]*\x7d/g)` greedily matches from the first
opening brace to the last closing brace (one match at most, so the
sort-by-length step picks exactly it); `JSON.parse` is embedded as a
fuel-based recursive-descent parser returning `none` where it throws. -/

/-- First fence pass: remove every ``` and, case-insensitively, a `json`
word glued to it.  `fuel` bounds the scan steps; every step consumes at
least one character, so `l.length` steps always suffice. -/
def fencePass1Go : ℕ → List Char → List Char
  | 0, l => l
  | fuel + 1, '`' :: '`' :: '`' :: j :: s :: o :: n :: rest =>
    if lowerChar j = 'j' && lowerChar s = 's' && lowerChar o = 'o' &&
        lowerChar n = 'n'
    then fencePass1Go fuel rest
    else fencePass1Go fuel (j :: s :: o :: n :: rest)
  | fuel + 1, '`' :: '`' :: '`' :: rest => fencePass1Go fuel rest
  | fuel + 1, c :: rest => c :: fencePass1Go fuel rest
  | _ + 1, [] => []

def fencePass1 (l : List Char) : List Char := fencePass1Go l.length l

/-- Second fence pass: remove every remaining ```. -/
def fencePass2 : List Char → List Char
  | '`' :: '`' :: '`' :: rest => fencePass2 rest
  | c :: rest => c :: fencePass2 rest
  | [] => []

/-- The greedy regex match: everything from the first opening brace through
the last closing brace, `none` when the regex does not match. -/
def braceCandidate (l : List Char) : Option (List Char) :=
  let after := l.dropWhile (fun c => c ≠ '{')
  let upto := (after.reverse.dropWhile (fun c => c ≠ '}')).reverse
  if upto = [] then none else some upto

/-- JSON whitespace (space, tab, line feed, carriage return). -/
def jsonWs (c : Char) : Bool := c = ' ' || c = '\t' || c = '\n' || c = '\r'

def skipWs (l : List Char) : List Char := l.dropWhile jsonWs

def hexVal (c : Char) : Option ℕ :=
  if '0' ≤ c ∧ c ≤ '9' then some (c.toNat - 48)
  else if 'a' ≤ c ∧ c ≤ 'f' then some (c.toNat - 87)
  else if 'A' ≤ c ∧ c ≤ 'F' then some (c.toNat - 55)
  else none

def parseHex4 : List Char → Option (ℕ × List Char)
  | a :: b :: c :: d :: rest =>
    match hexVal a, hexVal b, hexVal c, hexVal d with
    | some va, some vb, some vc, some vd =>
      some (((va * 16 + vb) * 16 + vc) * 16 + vd, rest)
    | _, _, _, _ => none
  | _ => none

/-- The characters of a JSON string literal after the opening quote;
returns the decoded content and the rest after the closing quote.
(A `\uXXXX` escape denoting a lone UTF-16 surrogate has no scalar-value
counterpart; `Char.ofNat` maps it to the null character.) -/
def parseStringChars : ℕ → List Char → Option (List Char × List Char)
  | 0, _ => none
  | _, [] => none
  | fuel + 1, c :: rest =>
    if c = '"' then some ([], rest)
    else if c = '\\' then
      match rest with
      | [] => none
      | e :: rest2 =>
        if e = '"' then (parseStringChars fuel rest2).map fun p => ('"' :: p.1, p.2)
        else if e = '\\' then (parseStringChars fuel rest2).map fun p => ('\\' :: p.1, p.2)
        else if e = '/' then (parseStringChars fuel rest2).map fun p => ('/' :: p.1, p.2)
        else if e = 'b' then (parseStringChars fuel rest2).map fun p => ('\x08' :: p.1, p.2)
        else if e = 'f' then (parseStringChars fuel rest2).map fun p => ('\x0c' :: p.1, p.2)
        else if e = 'n' then (parseStringChars fuel rest2).map fun p => ('\n' :: p.1, p.2)
        else if e = 'r' then (parseStringChars fuel rest2).map fun p => ('\r' :: p.1, p.2)
        else if e = 't' then (parseStringChars fuel rest2).map fun p => ('\t' :: p.1, p.2)
        else if e = 'u' then
          match parseHex4 rest2 with
          | some (n, rest3) =>
            (parseStringChars fuel rest3).map fun p => (Char.ofNat n :: p.1, p.2)
          | none => none
        else none
    else if c.toNat < 32 then none
    else (parseStringChars fuel rest).map fun p => (c :: p.1, p.2)

def digitVal (c : Char) : ℕ := c.toNat - 48

def digitsVal (l : List Char) : ℕ := l.foldl (fun a c => 10 * a + digitVal c) 0

/-- A JSON number: `-? (0 | [1-9][0-9]*) (. [0-9]+)? ([eE][+-]?[0-9]+)?`,
with its rational value and the unconsumed rest. -/
def parseNumber (l : List Char) : Option (ℚ × List Char) :=
  let signed : Bool × List Char :=
    match l with
    | '-' :: r => (true, r)
    | _ => (false, l)
  let intPart : Option (ℕ × List Char) :=
    match signed.2 with
    | '0' :: r => some (0, r)
    | c :: _ =>
      if c.isDigit then
        some (digitsVal (signed.2.takeWhile Char.isDigit),
          signed.2.dropWhile Char.isDigit)
      else none
    | [] => none
  match intPart with
  | none => none
  | some (ip, r1) =>
    let fracPart : Option (ℚ × List Char) :=
      match r1 with
      | '.' :: r2 =>
        let ds := r2.takeWhile Char.isDigit
        if ds = [] then none
        else some ((digitsVal ds : ℚ) / (10 : ℚ) ^ ds.length, r2.dropWhile Char.isDigit)
      | _ => some (0, r1)
    match fracPart with
    | none => none
    | some (fp, r2) =>
      let expPart : Option (ℤ × List Char) :=
        match r2 with
        | c :: r3 =>
          if c = 'e' ∨ c = 'E' then
            match r3 with
            | '+' :: r4 =>
              let ds := r4.takeWhile Char.isDigit
              if ds = [] then none
              else some ((digitsVal ds : ℤ), r4.dropWhile Char.isDigit)
            | '-' :: r4 =>
              let ds := r4.takeWhile Char.isDigit
              if ds = [] then none
              else some (-(digitsVal ds : ℤ), r4.dropWhile Char.isDigit)
            | _ =>
              let ds := r3.takeWhile Char.isDigit
              if ds = [] then none
              else some ((digitsVal ds : ℤ), r3.dropWhile Char.isDigit)
          else some (0, r2)
        | [] => some (0, r2)
      match expPart with
      | none => none
      | some (ex, r3) =>
        let q : ℚ := ((ip : ℚ) + fp) * (10 : ℚ) ^ ex
        some (if signed.1 then -q else q, r3)

mutual

/-- A JSON value (after skipping leading whitespace). -/
def parseValue : ℕ → List Char → Option (JsVal × List Char)
  | 0, _ => none
  | fuel + 1, l =>
    match skipWs l with
    | [] => none
    | c :: rest =>
      if c = '{' then
        match skipWs rest with
        | '}' :: rest2 => some (.obj [], rest2)
        | rest2 => parseObjRest fuel rest2 []
      else if c = '[' then
        match skipWs rest with
        | ']' :: rest2 => some (.arr [], rest2)
        | rest2 => parseArrRest fuel rest2 []
      else if c = '"' then
        (parseStringChars (fuel + 1) rest).map fun p => (.str (String.mk p.1), p.2)
      else if c = 't' then
        match rest with
        | 'r' :: 'u' :: 'e' :: rest2 => some (.bool true, rest2)
        | _ => none
      else if c = 'f' then
        match rest with
        | 'a' :: 'l' :: 's' :: 'e' :: rest2 => some (.bool false, rest2)
        | _ => none
      else if c = 'n' then
        match rest with
        | 'u' :: 'l' :: 'l' :: rest2 => some (.null, rest2)
        | _ => none
      else
        match parseNumber (c :: rest) with
        | some (q, rest2) => some (.num q, rest2)
        | none => none

/-- The members of an object after its opening brace (first member pending).
Duplicate keys overwrite in place, as JS property assignment does. -/
def parseObjRest : ℕ → List Char → List (String × JsVal) →
    Option (JsVal × List Char)
  | 0, _, _ => none
  | fuel + 1, l, acc =>
    match skipWs l with
    | '"' :: rest =>
      match parseStringChars (fuel + 1) rest with
      | some (key, rest2) =>
        match skipWs rest2 with
        | ':' :: rest3 =>
          match parseValue fuel rest3 with
          | some (v, rest4) =>
            match skipWs rest4 with
            | ',' :: rest5 => parseObjRest fuel rest5 (assocSet acc (String.mk key) v)
            | '}' :: rest5 => some (.obj (assocSet acc (String.mk key) v), rest5)
            | _ => none
          | none => none
        | _ => none
      | none => none
    | _ => none

/-- The elements of an array after its opening bracket (first element
pending). -/
def parseArrRest : ℕ → List Char → List JsVal → Option (JsVal × List Char)
  | 0, _, _ => none
  | fuel + 1, l, acc =>
    match parseValue fuel l with
    | some (v, rest) =>
      match skipWs rest with
      | ',' :: rest2 => parseArrRest fuel rest2 (acc ++ [v])
      | ']' :: rest2 => some (.arr (acc ++ [v]), rest2)
      | _ => none
    | none => none

end

/-- `JSON.parse` on a character list: one value, then only whitespace. -/
def parseJsonChars (l : List Char) : Option JsVal :=
  match parseValue (2 * l.length + 4) l with
  | some (v, rest) => if skipWs rest = [] then some v else none
  | none => none

/-- `extractJson` (source lines 109-116): `none` models a throw. -/
def extractJson (output : String) : Option JsVal :=
  if output = "" then none
  else
    match braceCandidate (fencePass2 (fencePass1 output.data)) with
    | none => none
    | some m => parseJsonChars m

theorem fencePass1Go_id : ∀ fuel (l : List Char), (∀ c ∈ l, c ≠ '`') →
    fencePass1Go fuel l = l := by
  intro fuel
  induction fuel with
  | zero => intro l _; rfl
  | succ fuel ih =>
    intro l h
    cases l with
    | nil => rfl
    | cons c cs =>
      have hc : c ≠ '`' := h c (List.mem_cons_self _ _)
      rw [fencePass1Go.eq_def]
      split
      · rename_i heq
        omega
      · rename_i hn hl
        injection hl with h1 _
        exact absurd h1 hc
      · rename_i hn hl
        injection hl with h1 _
        exact absurd h1 hc
      · rename_i hn hl
        injection hn with hn
        injection hl with h1 h2
        subst hn
        subst h1
        subst h2
        rw [ih cs (fun d hd => h d (List.mem_cons_of_mem _ hd))]
      · rename_i hn hl
        cases hl

theorem fencePass1_id (l : List Char) (h : ∀ c ∈ l, c ≠ '`') :
    fencePass1 l = l := fencePass1Go_id l.length l h

theorem fencePass2_id : ∀ l : List Char, (∀ c ∈ l, c ≠ '`') →
    fencePass2 l = l := by
  intro l
  induction l with
  | nil => intro _; rfl
  | cons c cs ih =>
    intro h
    have hc : c ≠ '`' := h c (List.mem_cons_self _ _)
    rw [fencePass2.eq_def]
    split
    · rename_i heq
      injection heq with h1 _
      exact absurd h1 hc
    · rename_i heq
      injection heq with h1 h2
      subst h1
      subst h2
      rw [ih (fun d hd => h d (List.mem_cons_of_mem _ hd))]
    · rename_i heq
      cases heq

theorem dropWhile_append_all {p : Char → Bool} :
    ∀ {A : List Char} (B : List Char), (∀ c ∈ A, p c = true) →
    (A ++ B).dropWhile p = B.dropWhile p := by
  intro A
  induction A with
  | nil => intro B _; rfl
  | cons c cs ih =>
    intro B h
    rw [List.cons_append, List.dropWhile_cons, if_pos (h c (List.mem_cons_self _ _)),
      ih B (fun d hd => h d (List.mem_cons_of_mem _ hd))]

theorem braceCandidate_decomp {B O A : List Char}
    (hB : ∀ c ∈ B, c ≠ '{') (hA : ∀ c ∈ A, c ≠ '}')
    (hO0 : O.head? = some '{') (hO1 : O.reverse.head? = some '}') :
    braceCandidate (B ++ O ++ A) = some O := by
  have hOne : O ≠ [] := by
    intro h
    rw [h] at hO0
    cases hO0
  have h1 : (B ++ O ++ A).dropWhile (fun c => c ≠ '{') = O ++ A := by
    rw [List.append_assoc,
      dropWhile_append_all (O ++ A) (fun c hc => by simpa using hB c hc)]
    refine dropWhile_fix ?_
    intro a ha
    rw [List.head?_append_of_ne_nil _ hOne, hO0] at ha
    injection ha with ha
    rw [← ha]
    simp
  have h2 : ((O ++ A).reverse.dropWhile (fun c => c ≠ '}')).reverse = O := by
    rw [List.reverse_append,
      dropWhile_append_all O.reverse (fun c hc => by
        simpa using hA c (List.mem_reverse.mp hc))]
    have hOr : O.reverse ≠ [] := by simpa using hOne
    rw [dropWhile_fix (fun a ha => by
      rw [hO1] at ha
      injection ha with ha
      rw [← ha]
      simp)]
    exact List.reverse_reverse O
  unfold braceCandidate
  dsimp only
  rw [h1, h2, if_neg hOne]

/-- C5 (counterexample): the extractor does not brace-balance.  The input
holds prose, the well-formed object `\x7b"a": 1\x7d`, and trailing
commentary containing a stray closing brace; the greedy regex grabs from the
first `\x7b` to the *last* `\x7d`, `JSON.parse` fails on the result, and the
extractor throws — while the same commentary without a stray brace
succeeds. -/
theorem c5_counterexample :
    extractJson "pre \x7b\"a\": 1\x7d see \x7d here" = none ∧
    extractJson "pre \x7b\"a\": true\x7d ok" = some (.obj [("a", .bool true)]) :=
  ⟨rfl, rfl⟩

/-- C5 (amended): the extractor recovers the JSON object from
`before ++ objText ++ after` only under conditions stronger than the spec
states: no backticks anywhere, no opening brace in the prose before, and no
closing brace in the commentary after (the regex spans from the first
opening to the last closing brace; it performs no depth balancing and no
string-literal awareness). -/
theorem c5_extract (before objText after : String) (j : JsVal)
    (hb : ∀ c ∈ before.data, c ≠ '{' ∧ c ≠ '`')
    (ho : ∀ c ∈ objText.data, c ≠ '`')
    (ha : ∀ c ∈ after.data, c ≠ '}' ∧ c ≠ '`')
    (hhead : objText.data.head? = some '{')
    (hlast : objText.data.reverse.head? = some '}')
    (hp : parseJsonChars objText.data = some j) :
    extractJson (before ++ objText ++ after) = some j := by
  have hne : before ++ objText ++ after ≠ "" := by
    intro h
    have hd : before.data ++ objText.data ++ after.data = ([] : List Char) :=
      congrArg String.data h
    have h0 : objText.data = [] := (List.append_eq_nil.mp (List.append_eq_nil.mp hd).1).2
    rw [h0] at hhead
    cases hhead
  unfold extractJson
  rw [if_neg hne]
  have hdata : (before ++ objText ++ after).data =
      before.data ++ objText.data ++ after.data := rfl
  rw [hdata]
  have htick : ∀ c ∈ before.data ++ objText.data ++ after.data, c ≠ '`' := by
    intro c hc
    rcases List.mem_append.mp hc with hc | hc
    · rcases List.mem_append.mp hc with hc | hc
      · exact (hb c hc).2
      · exact ho c hc
    · exact (ha c hc).2
  rw [fencePass1_id _ htick, fencePass2_id _ htick,
    braceCandidate_decomp (fun c hc => (hb c hc).1) (fun c hc => (ha c hc).1) hhead hlast]
  exact hp

/-- Witness for C5: prose, a small object, and brace-free commentary. -/
theorem c5_extract_witness :
    ((∀ c ∈ ("x " : String).data, c ≠ '{' ∧ c ≠ '`') ∧
     (∀ c ∈ ("\x7b\"a\": true\x7d" : String).data, c ≠ '`') ∧
     (∀ c ∈ (" y." : String).data, c ≠ '}' ∧ c ≠ '`')) ∧
    extractJson ("x " ++ "\x7b\"a\": true\x7d" ++ " y.") =
      some (.obj [("a", .bool true)]) :=
  ⟨⟨by decide, by decide, by decide⟩,
    c5_extract "x " "\x7b\"a\": true\x7d" " y." (.obj [("a", .bool true)])
      (by decide) (by decide) (by decide) rfl rfl rfl⟩

/-! ### Analysis-phase embedding (POST handler, source lines 462-504). -/

/-- The chunk loop: each list element models one chunk agent call's
`finalOutput` (`none` = the call produced none).  A truthy output is parsed
with `extractJson`; a failed extraction is caught and the chunk skipped. -/
def usablePartials (outputs : List (Option String)) : List JsVal :=
  outputs.filterMap fun o => o.bind fun s => if s = "" then none else extractJson s

/-- The `throw`/HTTP-500 exits of the merge-and-reconcile tail of the
handler. -/
inductive PipelineError where
  | mergeNoOutput
  | extractFailed
  | reconcileFailed

/-- Steps 3-4 of the handler: the merge agent's `finalOutput` is an external
input (the accumulated partials influence only the prompt string sent to
that agent), then `extractJson` and `reconcileAndScore` run on it. -/
def pipelineResult (partials : List JsVal) (mergeOut : Option String) :
    Except PipelineError OutRec :=
  match mergeOut with
  | none => .error .mergeNoOutput
  | some m =>
    if m = "" then .error .mergeNoOutput
    else
      match extractJson m with
      | none => .error .extractFailed
      | some j =>
        match reconcileAndScore j with
        | none => .error .reconcileFailed
        | some out => .ok out

def pipelineOk : Except PipelineError OutRec → Bool
  | .ok _ => true
  | .error _ => false

/-- C4 (counterexample): zero usable partial records is not a hard failure.
A single chunk whose output has no JSON yields zero partials, yet the
request succeeds when the merge agent answers with a parseable object —
there is no `NoUsableResults` check in the code. -/
theorem c4_counterexample :
    usablePartials [some "no json"] = [] ∧
    pipelineOk (pipelineResult (usablePartials [some "no json"])
      (some "\x7b\x7d")) = true :=
  ⟨rfl, rfl⟩

/-- C4 (amended): a chunk whose output is missing, empty, or fails
extraction is skipped and contributes nothing to the partial records
(first conjunct), and the fate of the request is decided solely by the
merge call chain — merge output present and nonempty, extractable, and
reconcilable — independently of how many usable partials were accumulated
(second conjunct); in particular zero usable partials alone never fails the
request. -/
theorem c4_skip_and_merge (outputs pre post : List (Option String))
    (bad : Option String) (m : String) (j : JsVal) (out : OutRec)
    (hbad : (bad.bind fun s => if s = "" then none else extractJson s) = none)
    (hm : m ≠ "") (hj : extractJson m = some j)
    (hr : reconcileAndScore j = some out) :
    usablePartials (pre ++ bad :: post) = usablePartials (pre ++ post) ∧
    pipelineResult (usablePartials outputs) (some m) = .ok out := by
  constructor
  · unfold usablePartials
    have hstep : List.filterMap (fun o : Option String =>
          o.bind fun s => if s = "" then none else extractJson s) (bad :: post) =
        List.filterMap (fun o : Option String =>
          o.bind fun s => if s = "" then none else extractJson s) post := by
      rw [List.filterMap_cons, hbad]
    rw [List.filterMap_append, List.filterMap_append, hstep]
  · unfold pipelineResult
    show (if m = "" then Except.error PipelineError.mergeNoOutput
      else match extractJson m with
        | none => Except.error PipelineError.extractFailed
        | some j =>
          match reconcileAndScore j with
          | none => Except.error PipelineError.reconcileFailed
          | some out => Except.ok out) = Except.ok out
    rw [if_neg hm, hj]
    show (match reconcileAndScore j with
      | none => Except.error PipelineError.reconcileFailed
      | some out => Except.ok out) = Except.ok out
    rw [hr]

/-- Witness for C4: one unusable chunk, merge answering `\x7b\x7d`. -/
theorem c4_skip_and_merge_witness :
    (((some "no json").bind fun s =>
        if s = "" then none else extractJson s) = none ∧
      ("\x7b\x7d" : String) ≠ "") ∧
    (usablePartials ([] ++ some "no json" :: []) = usablePartials ([] ++ []) ∧
     pipelineResult (usablePartials []) (some "\x7b\x7d") =
      .ok (Option.get (reconcileAndScore (JsVal.obj [])) (by rfl))) :=
  ⟨⟨rfl, by decide⟩,
    c4_skip_and_merge [] [] [] (some "no json") "\x7b\x7d" (.obj []) _
      rfl (by decide) rfl (Option.some_get (by rfl)).symm⟩

/-- Witness for C7 at `("ab\n\ncd", 7000, 8000, 28)`. -/
theorem c7_chunks_reconstruct_witness :
    (jsTrim "ab\n\ncd" ≠ "" ∧
      (∀ u ∈ chunkUnits "ab\n\ncd", estimateTokens u + 2 ≤ 8000) ∧
      (chunkUnits "ab\n\ncd").length ≤ 28) ∧
    joinNN (chunkCore "ab\n\ncd" 7000 8000 28) = joinNN (chunkUnits "ab\n\ncd") :=
  ⟨⟨by decide, by decide, by decide⟩,
    c7_chunks_reconstruct "ab\n\ncd" 7000 8000 28 (by decide) (by decide) (by decide)⟩

end AvvDash
